import Mathlib

/-!
# Verification of the photo-sorter Reference Cache & Reversible-Mutation subsystem

Shallow embedding of the core operations of the `photo-sorter` repository:

* `top_controls.py` (a.k.a. `photo_sorter.py`): `_build_safe_destination`,
  `_copy_one`, `_move_one`, `distribute_to_labels`, `identify_faces`,
  `build_reference_embeddings_for_labels`, `build_reference_embeddings_from_db`.
* `ImageRangerGUI.py`: the debounced rebuild scheduler
  (`rebuild_embeddings_async` / `_rebuild_do`), the thumbnail cache
  (`_thumbcache_get` / `_thumbcache_put`), and the `delete_refs` branch of
  `undo_last_action`.
* `Reference_GUI.py`: `ReferenceBrowser.delete_selected_refs` and
  `_trash_move_file`.

The file system is modelled as an association list from paths to file
contents; a path is a pair `(folder, filename)` standing for
`os.path.join(folder, filename)`.  External collaborators (the embedding
model, the reference database primitives, `uuid4`, the OS trash) are
abstracted as parameters, as noted at each definition.
-/

/-! ## Association-list helpers (Python `dict` with insertion order) -/

/-- `d.get(k)` on an insertion-ordered dict modelled as an association list. -/
def aGet {K V : Type} [DecidableEq K] (c : List (K × V)) (k : K) : Option V :=
  (c.find? (fun e => e.1 = k)).map (·.2)

/-- `d[k] = v`: replace in place if present (Python dicts keep the key's
position on update), append otherwise. -/
def aSet {K V : Type} [DecidableEq K] (c : List (K × V)) (k : K) (v : V) :
    List (K × V) :=
  if c.any (fun e => e.1 = k) then c.map (fun e => if e.1 = k then (k, v) else e)
  else c ++ [(k, v)]

/-- `del d[k]` (no-op when the key is absent, matching the source's
`try: del … except: pass` uses; plain `del` sites are only reached when
the key is present). -/
def aDel {K V : Type} [DecidableEq K] (c : List (K × V)) (k : K) : List (K × V) :=
  c.filter (fun e => !(e.1 = k : Bool))

/-- `d.setdefault(k, []).append(v)`. -/
def aAppend {K V : Type} [DecidableEq K] (c : List (K × List V)) (k : K) (v : V) :
    List (K × List V) :=
  if c.any (fun e => e.1 = k) then
    c.map (fun e => if e.1 = k then (e.1, e.2 ++ [v]) else e)
  else c ++ [(k, [v])]

/-- A file-system path, modelling `os.path.join(folder, filename)` as the
pair `(folder, filename)`. -/
abbrev FPath := String × String

/-- The file system: an association list from paths to file contents. -/
abbrev FS := List (FPath × String)

/-- `os.path.exists` on the modelled file system. -/
def pathExists (fs : FS) (p : FPath) : Bool :=
  fs.any (fun e => e.1 = p)

/-- Read a file's content (`none` if the path does not exist). -/
def fsGet (fs : FS) (p : FPath) : Option String :=
  aGet fs p

/-- Write a file, replacing any previous content at that path. -/
def fsSet (fs : FS) (p : FPath) (c : String) : FS :=
  (p, c) :: aDel fs p

/-- Remove a file. -/
def fsDel (fs : FS) (p : FPath) : FS :=
  aDel fs p

/-- `os.path.splitext`: split a filename at the last dot, provided some
character before that dot is not itself a dot (so `".bashrc"` has no
extension).  Returns `(name, ext)` with the dot kept at the front of
`ext`, as in Python. -/
def splitext (f : String) : String × String :=
  let l := f.toList
  let valid := (List.range l.length).filter (fun i =>
    l.getD i ' ' == '.' && (List.range i).any (fun j => !(l.getD j ' ' == '.')))
  match valid.getLast? with
  | none => (f, "")
  | some i => ((l.take i).asString, (l.drop i).asString)

/-- The collision-avoidance loop of `_build_safe_destination`
(`top_controls.py`): try `name_i ++ ext` for `i = 2, 3, …` until a free
path is found.  The source's `while True` loop always terminates on real
file systems; here it carries explicit fuel and returns `none` only when
the fuel runs out (a model artifact that callers instantiate away). -/
def safeLoop (fs : FS) (folder name ext : String) : Nat → Nat → Option FPath
  | 0, _ => none
  | fuel + 1, i =>
    let cand : FPath := (folder, name ++ "_" ++ toString i ++ ext)
    if pathExists fs cand then safeLoop fs folder name ext fuel (i + 1)
    else some cand

/-- `_build_safe_destination` (`top_controls.py`): a destination inside
`out_folder` that does not overwrite existing files.  With
`keep_original_filenames = true` it keeps the name and suffixes `_2`,
`_3`, … on collision; otherwise it prefixes an 8-char uuid (`uuid4` is
external randomness, abstracted as the `uuidHex` parameter).
`os.makedirs` has no counterpart in the model (folders are implicit). -/
def _build_safe_destination (fs : FS) (out_folder filename : String)
    (keep_original_filenames : Bool) (uuidHex : String) : Option FPath :=
  if !keep_original_filenames then
    some (out_folder, uuidHex ++ "_" ++ filename)
  else
    let candidate : FPath := (out_folder, filename)
    if !(pathExists fs candidate) then some candidate
    else
      let ne := splitext filename
      safeLoop fs out_folder ne.1 ne.2 (fs.length + 1) 2

/-- `_copy_one` (`top_controls.py`): pick a safe destination, then
`shutil.copy2` the source there.  `none` when the source is missing (the
source code would raise) or on fuel exhaustion in the name search. -/
def _copy_one (fs : FS) (src_path : FPath) (dest_folder filename : String)
    (keep_original_filenames : Bool) (uuidHex : String) : Option FS :=
  match _build_safe_destination fs dest_folder filename keep_original_filenames uuidHex,
        fsGet fs src_path with
  | some dst, some c => some (fsSet fs dst c)
  | _, _ => none

/-- `_move_one` (`top_controls.py`): pick a safe destination (with the
source still present), then `shutil.move` the source there. -/
def _move_one (fs : FS) (src_path : FPath) (dest_folder filename : String)
    (keep_original_filenames : Bool) (uuidHex : String) : Option FS :=
  match _build_safe_destination fs dest_folder filename keep_original_filenames uuidHex,
        fsGet fs src_path with
  | some dst, some c => some (fsSet (fsDel fs src_path) dst c)
  | _, _ => none

/-- `os.path.join output_dir label` for per-label output folders. -/
def joinDir (dir name : String) : String := dir ++ "/" ++ name

/-- Python's `sorted` on a list of strings (lexicographic by code point). -/
def pySortedStrings (l : List String) : List String :=
  List.insertionSort (fun a b => a ≤ b) l

/-- `distribute_to_labels` (`top_controls.py`).  `labels_set` is the Python
set of matched labels, modelled as a list; `uuidGen` abstracts the fresh
`uuid4` drawn by each `_copy_one`/`_move_one` call (call `j` uses
`uuidGen j`).  Result `none` only on a model artifact (fuel exhaustion /
missing source), never reached by the source's control flow. -/
def distribute_to_labels (fs : FS) (img_path : FPath) (filename : String)
    (labels_set : List String) (best_label : Option String) (output_dir : String)
    (keep_original_filenames : Bool) (uuidGen : Nat → String) (mode : String) :
    Option FS :=
  if labels_set.isEmpty then some fs
  else
    -- safety fallback: best_label None → sorted(labels_set)[0]
    let best := match best_label with
      | none => (pySortedStrings labels_set).headD ""
      | some b => b
    if mode == "best" || labels_set.length == 1 then
      _move_one fs img_path (joinDir output_dir best) filename
        keep_original_filenames (uuidGen 0)
    else
      -- MULTI: copy to all non-best labels, then move the original to best
      let others := labels_set.filter (fun lbl => !(lbl == best))
      (others.enum.foldlM (fun fs' e =>
          _copy_one fs' img_path (joinDir output_dir e.2) filename
            keep_original_filenames (uuidGen e.1)) fs).bind
        (fun fs1 =>
          _move_one fs1 img_path (joinDir output_dir best) filename
            keep_original_filenames (uuidGen others.length))

/-! ## Embedding cache rebuilds (`top_controls.py`)

The cache is the global `ref_embeddings : dict[label, vector]`.  Vectors
are an abstract type `V`; the embedding extractor is abstracted as
`embed : FPath → Option V` (`none` models a missing file, an unreadable
image, or an image with zero faces — all skipped by the source), and
`np.mean` over the per-image vectors of a label as `mean : List V → V`.
`purge_missing_references` touches only the database, never the cache, so
it has no cache-level model.  `modelOk` is the outcome of
`get_buffalo_model` (`none` on initialization failure) and `dbOk` the
outcome of `get_all_references` (exception on failure). -/

/-- The per-label body of `build_reference_embeddings_for_labels`: gather
this label's reference paths, recompute its mean vector, or remove the
label from the cache when nothing valid remains. -/
def rebuildOneLabel {V : Type} (embed : FPath → Option V) (mean : List V → V)
    (allRefs : List (String × FPath)) (cache : List (String × V)) (lbl : String) :
    List (String × V) :=
  let paths := (allRefs.filter (fun r => r.1 = lbl)).map (·.2)
  if paths.isEmpty then aDel cache lbl
  else
    let embeddings := paths.filterMap embed
    if embeddings.isEmpty then aDel cache lbl
    else aSet cache lbl (mean embeddings)

/-- `build_reference_embeddings_for_labels` (`top_controls.py`): scoped
rebuild of only the requested labels.  Reference rows are `(label, path)`
pairs (row ids are never used by the source).  The source iterates the
Python set `set(labels)` in unspecified order; the model iterates
`labels.dedup` — every property proved here is order-independent. -/
def build_reference_embeddings_for_labels {V : Type} (modelOk dbOk : Bool)
    (allRefs : List (String × FPath)) (embed : FPath → Option V)
    (mean : List V → V) (labels : List String) (cache : List (String × V)) :
    List (String × V) :=
  if !modelOk then cache
  else if !dbOk then cache
  else if labels.isEmpty then cache
  else labels.dedup.foldl (rebuildOneLabel embed mean allRefs) cache

/-- `build_reference_embeddings_from_db` (`top_controls.py`): full rebuild
for all labels.  The source executes `ref_embeddings.clear()` first,
before the model or the database is consulted. -/
def build_reference_embeddings_from_db {V : Type} (modelOk dbOk : Bool)
    (allRefs : List (String × FPath)) (embed : FPath → Option V)
    (mean : List V → V) (cache : List (String × V)) : List (String × V) :=
  let cleared : List (String × V) := []
  if !modelOk then cleared
  else if !dbOk then cleared
  else if allRefs.isEmpty then cleared
  else
    let tmp := allRefs.foldl (fun t r =>
      match embed r.2 with
      | some v => aAppend t r.1 v
      | none => t) ([] : List (String × List V))
    tmp.foldl (fun c e => if e.2.isEmpty then c else aSet c e.1 (mean e.2)) cleared

/-! ## Face identification (`identify_faces`, `top_controls.py`)

`cosine_similarity` is external (sklearn); it is abstracted as
`sim : V → V → ℚ`, and the per-label threshold lookup
`get_threshold_for_label` as `thr : String → ℚ`.  `log_match_result`
writes only to the external audit log. -/

/-- The inner per-face loop of `identify_faces`: scan the cached label
vectors keeping the highest-scoring label whose score passes its
threshold (`best_score` starts at `0.0`, so a winning score must also be
strictly positive). -/
def face_best {V : Type} (refs : List (String × V)) (thr : String → ℚ)
    (sim : V → V → ℚ) (emb : V) : Option String × ℚ :=
  refs.foldl (fun acc e =>
    let score := sim emb e.2
    if score ≥ thr e.1 ∧ score > acc.2 then (some e.1, score) else acc)
    ((none : Option String), (0 : ℚ))

/-- Python `max(items, key=…)` over dict items: the first entry attaining
the maximal second component. -/
def pyMaxSnd (l : List (String × ℚ)) : Option (String × ℚ) :=
  match l with
  | [] => none
  | x :: xs => some (xs.foldl (fun b y => if y.2 > b.2 then y else b) x)

/-- `identify_faces` (`top_controls.py`).  Returns
`(labels_set, best_label, label_scores)`.  `labels_set` is a Python set,
modelled as the deduplicated list of per-face winning labels;
`label_scores` is the insertion-ordered dict of per-label max scores.
`if best_label:` is Python truthiness: `None` and the empty string are
both falsy. -/
def identify_faces {V : Type} (refs : List (String × V)) (thr : String → ℚ)
    (sim : V → V → ℚ) (faces : List V) :
    List String × Option String × List (String × ℚ) :=
  let r := faces.foldl (fun (acc : List (String × ℚ) × List (String × ℚ)) f =>
    let b := face_best refs thr sim f
    match b.1 with
    | some l =>
      if l.isEmpty then acc
      else
        let scores := aSet acc.1 l (max ((aGet acc.1 l).getD 0) b.2)
        (scores, acc.2 ++ [(l, b.2)])
    | none => acc) (([] : List (String × ℚ)), ([] : List (String × ℚ)))
  if r.2.isEmpty then ([], none, r.1)
  else
    let labels_set := (r.2.map (·.1)).dedup
    (labels_set, (pyMaxSnd r.1).map (·.1), r.1)

/-! ## Debounced rebuild scheduler (`ImageRangerGUI.py`)

`rebuild_embeddings_async` cancels any pending `after(200, …)` timer and
schedules a fresh one whose callback captures only the *new* request's
`only_label`; `_rebuild_do` then runs the scoped rebuild in a worker
thread.  The state machine records the pending timer payload and the
scopes of executed jobs (`none` = full rebuild, `some l` = one label). -/

structure RebuildSched where
  pending : Option (Option String)
  executed : List (Option String)
deriving DecidableEq, Repr

/-- `ImageRangerGUI.rebuild_embeddings_async`: `after_cancel` the pending
timer (if any) and schedule `_rebuild_do(only_label)` afresh. -/
def rebuild_embeddings_async (s : RebuildSched) (only_label : Option String) :
    RebuildSched :=
  { s with pending := some only_label }

/-- The debounce timer firing: run `_rebuild_do` with the pending payload. -/
def timer_fire (s : RebuildSched) : RebuildSched :=
  match s.pending with
  | none => s
  | some ol => { pending := none, executed := s.executed ++ [ol] }

/-- A burst of `RequestRebuild` calls inside one debounce window (each
request arrives before the previous 200 ms timer fires, so each cancels
its predecessor), followed by the surviving timer firing. -/
def debounce_burst (s : RebuildSched) (reqs : List (Option String)) : RebuildSched :=
  timer_fire (reqs.foldl rebuild_embeddings_async s)

/-! ## Thumbnail cache (`_thumbcache_get` / `_thumbcache_put`,
`ImageRangerGUI.py`)

A dict `_THUMB_CACHE` plus a recency list `_THUMB_CACHE_ORDER`, capped at
`_THUMB_CACHE_MAX = 400` *entries*; keys are opaque.  There is no byte
accounting anywhere in the source. -/

structure ThumbCache (K V : Type) where
  cache : List (K × V)
  order : List K
deriving Repr

/-- The empty thumbnail cache (module initialization). -/
def tcEmpty {K V : Type} : ThumbCache K V := ⟨[], []⟩

/-- `_thumbcache_get`: on a hit, move the key to the most-recently-used
end of the order list (`list.remove` drops the first occurrence). -/
def _thumbcache_get {K V : Type} [DecidableEq K] (tc : ThumbCache K V) (key : K) :
    Option V × ThumbCache K V :=
  match aGet tc.cache key with
  | some v =>
    let order1 := if tc.order.contains key then tc.order.erase key else tc.order
    (some v, ⟨tc.cache, order1 ++ [key]⟩)
  | none => (none, tc)

/-- The eviction loop of `_thumbcache_put`: `while len(order) > maxN`,
pop the oldest key and delete its dict entry. -/
def evictLoop {K V : Type} [DecidableEq K] (maxN : Nat) :
    List (K × V) → List K → List (K × V) × List K
  | cache, [] => (cache, [])
  | cache, old :: rest =>
    if rest.length + 1 > maxN then evictLoop maxN (aDel cache old) rest
    else (cache, old :: rest)

/-- `_thumbcache_put`: insert/update, append the key to the order list,
then evict oldest-first until the count cap holds.  The source's cap is
`_THUMB_CACHE_MAX = 400`; it is a parameter here. -/
def _thumbcache_put {K V : Type} [DecidableEq K] (maxN : Nat)
    (tc : ThumbCache K V) (key : K) (v : V) : ThumbCache K V :=
  let cache1 := aSet tc.cache key v
  let order1 := tc.order ++ [key]
  let r := evictLoop maxN cache1 order1
  ⟨r.1, r.2⟩

/-- The spec's byte measure over the cache's entries (`§4.4`,
"totalEstimatedBytes"); the source itself keeps no such figure, so the
per-entry estimate is a parameter. -/
def totalEstBytes {K V : Type} (est : V → ℕ) (c : List (K × V)) : ℕ :=
  (c.map (fun e => est e.2)).sum

/-! ## Soft delete and undo (`Reference_GUI.py`, `ImageRangerGUI.py`)

The reference database is external; per the spec's Reference Store
interface, `DeleteReference(path)` removes the rows with that path and
`InsertReference(path, label)` appends a row (`Modelled from the spec`:
`reference_db.py` is not part of the sources).  Rows are `(label, path)`
pairs; ids are never used.  The OS trash is abstracted as
`trash : FPath → TrashOutcome`: `send2trash` success (`recycled`, not
restorable by the app), fallback move into the app-local `.trash` folder
(`movedTo dest`, the collision-safe destination chosen by
`_unique_path`), or failure (`errored`). -/

inductive TrashOutcome
  | recycled
  | movedTo (dest : FPath)
  | errored
deriving DecidableEq, Repr

/-- The result of `_trash_move_file`: the `(ok, detail)` pair of the
source, with `detail` kept only in the form the caller consumes —
`restoreHint` is the fallback destination when `ok` and
`detail not in (None, "recycle")` — plus the file system after the move. -/
structure TrashRet where
  ok : Bool
  restoreHint : Option FPath
  fs : FS
deriving DecidableEq, Repr

/-- `_trash_move_file` (`Reference_GUI.py` / `reference_utils`): missing
file → `(False, "not-found")`; recycle-bin success → `(True, "recycle")`;
fallback move into app trash → `(True, dest)`; exception →
`(False, "error: …")`. -/
def _trash_move_file (trash : FPath → TrashOutcome) (fs : FS) (p : FPath) :
    TrashRet :=
  if !(pathExists fs p) then ⟨false, none, fs⟩
  else
    match trash p with
    | .recycled => ⟨true, none, fsDel fs p⟩
    | .movedTo d => ⟨true, some d, fsSet (fsDel fs p) d ((fsGet fs p).getD "")⟩
    | .errored => ⟨false, none, fs⟩

structure UndoItem where
  backup_path : FPath
  original_path : FPath
deriving DecidableEq, Repr

/-- The `{"type": "delete_refs", "data": {label, items}}` undo payload. -/
structure DeleteRefsRecord where
  label : String
  items : List UndoItem
deriving DecidableEq, Repr

/-- Reference Store rows plus the file system. -/
structure RefState where
  fs : FS
  db : List (String × FPath)
deriving DecidableEq, Repr

/-- Accumulator of the `delete_selected_refs` row loop. -/
structure DelAcc where
  fs : FS
  db : List (String × FPath)
  items : List UndoItem
  cnt : Nat
deriving DecidableEq, Repr

/-- What `ReferenceBrowser.delete_selected_refs` leaves behind: the new
state, the undo record pushed (if any), the scopes passed to
`rebuild_embeddings_async`, and the deletion count it logs. -/
structure DeleteOutcome where
  state : RefState
  record : Option DeleteRefsRecord
  rebuilds : List (Option String)
  deletedCount : Nat
deriving DecidableEq, Repr

/-- `ReferenceBrowser.delete_selected_refs` (`Reference_GUI.py`).  GUI
dialogs are elided (a declined confirmation is the `targets = []` no-op).
The loop iterates the snapshot `entries = get_all_references()`; for each
row of the selected label whose path is targeted it soft-deletes the file
when present, *always* removes the DB rows for that path
("Always remove DB entry regardless"), and records an undo item only when
the soft-delete produced a restorable backup.  Afterwards it pushes the
undo record when any item was collected and requests one rebuild scoped
to the label.  (`_write_or_refresh_metadata` and `load_images` touch no
modelled state.) -/
def delete_selected_refs (trash : FPath → TrashOutcome) (label : String)
    (targets : List FPath) (st : RefState) : DeleteOutcome :=
  if label.isEmpty then ⟨st, none, [], 0⟩
  else if targets.isEmpty then ⟨st, none, [], 0⟩
  else
    let step := fun (acc : DelAcc) (row : String × FPath) =>
      if row.1 = label ∧ row.2 ∈ targets then
        let hf :=
          if pathExists acc.fs row.2 then
            let t := _trash_move_file trash acc.fs row.2
            (t.restoreHint, t.fs)
          else ((none : Option FPath), acc.fs)
        { fs := hf.2
          db := acc.db.filter (fun r => !(r.2 = row.2 : Bool))
          items := match hf.1 with
            | some b => acc.items ++ [⟨b, row.2⟩]
            | none => acc.items
          cnt := acc.cnt + 1 }
      else acc
    let r := st.db.foldl step ⟨st.fs, st.db, [], 0⟩
    let rec? := if r.items.isEmpty then none else some ⟨label, r.items⟩
    ⟨⟨r.fs, r.db⟩, rec?, [some label], r.cnt⟩

/-- Accumulator of the undo restore loop. -/
structure UndoAcc where
  fs : FS
  db : List (String × FPath)
  cnt : Nat
deriving DecidableEq, Repr

/-- Result of the `delete_refs` branch of `undo_last_action`. -/
structure UndoOutcome where
  state : RefState
  rebuilds : List (Option String)
  restoredCount : Nat
deriving DecidableEq, Repr

/-- The `delete_refs` branch of `ImageRangerGUI.undo_last_action`: for
every item whose backup still exists, move the backup to the original
path and reinsert the reference row; finally (label truthy) request one
rebuild scoped to that label.  The source also skips items missing the
`backup_path`/`original_path` keys — impossible for records produced by
`delete_selected_refs`, so not modelled. -/
def undo_delete_refs (rec : DeleteRefsRecord) (st : RefState) : UndoOutcome :=
  let r := rec.items.foldl (fun (acc : UndoAcc) it =>
    if pathExists acc.fs it.backup_path then
      { fs := fsSet (fsDel acc.fs it.backup_path) it.original_path
          ((fsGet acc.fs it.backup_path).getD "")
        db := acc.db ++ [(rec.label, it.original_path)]
        cnt := acc.cnt + 1 }
    else acc) ⟨st.fs, st.db, 0⟩
  ⟨⟨r.fs, r.db⟩, if rec.label.isEmpty then [] else [some rec.label], r.cnt⟩

/-- Delete a batch of references and immediately revert the pushed undo
record (`none` when no record was pushed). -/
def delete_then_undo (trash : FPath → TrashOutcome) (label : String)
    (targets : List FPath) (st : RefState) : Option UndoOutcome :=
  let d := delete_selected_refs trash label targets st
  d.record.map (fun rec => undo_delete_refs rec d.state)

example : splitext "photo.jpg" = ("photo", ".jpg") := by decide
example : splitext ".bashrc" = (".bashrc", "") := by decide
example : splitext "a.b.c" = ("a.b", ".c") := by decide
example : splitext "noext" = ("noext", "") := by decide

example :
    _build_safe_destination [((("out" : String), ("photo.jpg" : String)), "x")]
      "out" "photo.jpg" true "" = some ("out", "photo_2.jpg") := by decide

/-! ## Basic lemmas about the association-list and file-system helpers -/

theorem find?_keyed_map_self {K V : Type} [DecidableEq K] (c : List (K × V))
    (k : K) (v : V) :
    List.find? (fun e => decide (e.1 = k))
        (c.map (fun e => if e.1 = k then (k, v) else e)) =
      if c.any (fun e => decide (e.1 = k)) then some (k, v) else none := by
  induction c with
  | nil => simp
  | cons e t ih =>
    by_cases he : e.1 = k
    · simp only [List.map_cons, he, if_true, List.any_cons, decide_True,
        Bool.true_or]
      rw [List.find?_cons_of_pos _ (by simp)]
    · simp only [List.map_cons, he, if_false, List.any_cons, decide_False,
        Bool.false_or]
      rw [List.find?_cons_of_neg _ (by simpa using he)]
      exact ih

theorem find?_keyed_map_ne {K V : Type} [DecidableEq K] (c : List (K × V))
    (k q : K) (v : V) (h : q ≠ k) :
    List.find? (fun e => decide (e.1 = q))
        (c.map (fun e => if e.1 = k then (k, v) else e)) =
      List.find? (fun e => decide (e.1 = q)) c := by
  induction c with
  | nil => simp
  | cons e t ih =>
    by_cases he : e.1 = k
    · simp only [List.map_cons, he, if_true]
      rw [List.find?_cons_of_neg _ (by simpa using fun hkq => h hkq.symm),
        List.find?_cons_of_neg _ (by simpa [he] using fun hkq => h hkq.symm)]
      exact ih
    · simp only [List.map_cons, he, if_false]
      by_cases hq : e.1 = q
      · rw [List.find?_cons_of_pos _ (by simpa using hq),
          List.find?_cons_of_pos _ (by simpa using hq)]
      · rw [List.find?_cons_of_neg _ (by simpa using hq),
          List.find?_cons_of_neg _ (by simpa using hq)]
        exact ih

theorem find?_keyed_append_ne {K V : Type} [DecidableEq K] (c : List (K × V))
    (k q : K) (v : V) (h : q ≠ k) :
    List.find? (fun e => decide (e.1 = q)) (c ++ [(k, v)]) =
      List.find? (fun e => decide (e.1 = q)) c := by
  induction c with
  | nil =>
    simp only [List.nil_append, List.find?_nil]
    rw [List.find?_cons_of_neg _ (by simpa using fun hkq => h hkq.symm)]
    simp
  | cons e t ih =>
    by_cases hq : e.1 = q
    · rw [List.cons_append, List.find?_cons_of_pos _ (by simpa using hq),
        List.find?_cons_of_pos _ (by simpa using hq)]
    · rw [List.cons_append, List.find?_cons_of_neg _ (by simpa using hq),
        List.find?_cons_of_neg _ (by simpa using hq)]
      exact ih

theorem find?_keyed_filter_ne {K V : Type} [DecidableEq K] (c : List (K × V))
    (k q : K) (h : q ≠ k) :
    List.find? (fun e => decide (e.1 = q))
        (c.filter (fun e => !(e.1 = k : Bool))) =
      List.find? (fun e => decide (e.1 = q)) c := by
  induction c with
  | nil => simp
  | cons e t ih =>
    by_cases he : e.1 = k
    · simp only [List.filter_cons, he, decide_True, Bool.not_true, if_false]
      rw [List.find?_cons_of_neg _ (by simpa [he] using fun hkq => h hkq.symm)]
      exact ih
    · simp only [List.filter_cons, he, decide_False, Bool.not_false, if_true]
      by_cases hq : e.1 = q
      · rw [List.find?_cons_of_pos _ (by simpa using hq),
          List.find?_cons_of_pos _ (by simpa using hq)]
      · rw [List.find?_cons_of_neg _ (by simpa using hq),
          List.find?_cons_of_neg _ (by simpa using hq)]
        exact ih

theorem aGet_aSet_self {K V : Type} [DecidableEq K] (c : List (K × V)) (k : K)
    (v : V) : aGet (aSet c k v) k = some v := by
  unfold aGet aSet
  by_cases h : c.any (fun e => decide (e.1 = k)) = true
  · rw [if_pos h, find?_keyed_map_self, if_pos h]
    rfl
  · simp only [h, if_false]
    have : List.find? (fun e => decide (e.1 = k)) (c ++ [(k, v)]) = some (k, v) := by
      induction c with
      | nil => simp [List.find?_cons_of_pos]
      | cons e t ih =>
        simp only [List.any_cons, Bool.or_eq_true, decide_eq_true_eq, not_or] at h
        rw [List.cons_append, List.find?_cons_of_neg _ (by simpa using h.1)]
        exact ih (by simpa using h.2)
    simp [this]

theorem aGet_aSet_ne {K V : Type} [DecidableEq K] (c : List (K × V)) (k q : K)
    (v : V) (h : q ≠ k) : aGet (aSet c k v) q = aGet c q := by
  unfold aGet aSet
  by_cases hc : c.any (fun e => decide (e.1 = k)) = true
  · simp [hc, find?_keyed_map_ne c k q v h]
  · simp [hc, find?_keyed_append_ne c k q v h]

theorem aGet_aDel_ne {K V : Type} [DecidableEq K] (c : List (K × V)) (k q : K)
    (h : q ≠ k) : aGet (aDel c k) q = aGet c q := by
  unfold aGet aDel
  rw [find?_keyed_filter_ne c k q h]

theorem aGet_aDel_self {K V : Type} [DecidableEq K] (c : List (K × V)) (k : K) :
    aGet (aDel c k) k = none := by
  unfold aGet aDel
  have : List.find? (fun e => decide (e.1 = k))
      (c.filter (fun e => !(e.1 = k : Bool))) = none := by
    rw [List.find?_eq_none]
    intro e he
    have := List.of_mem_filter he
    simpa using this
  simp [this]

theorem fsGet_fsSet_self (fs : FS) (p : FPath) (c : String) :
    fsGet (fsSet fs p c) p = some c := by
  unfold fsGet fsSet aGet
  rw [List.find?_cons_of_pos _ (by simp)]
  rfl

theorem fsGet_fsSet_ne (fs : FS) (p q : FPath) (c : String) (h : q ≠ p) :
    fsGet (fsSet fs p c) q = fsGet fs q := by
  unfold fsGet fsSet
  show aGet ((p, c) :: aDel fs p) q = aGet fs q
  unfold aGet
  rw [List.find?_cons_of_neg _ (by simpa using fun hpq => h hpq.symm)]
  exact aGet_aDel_ne fs p q h

theorem fsGet_fsDel_ne (fs : FS) (p q : FPath) (h : q ≠ p) :
    fsGet (fsDel fs p) q = fsGet fs q :=
  aGet_aDel_ne fs p q h

theorem fsGet_fsDel_self (fs : FS) (p : FPath) :
    fsGet (fsDel fs p) p = none :=
  aGet_aDel_self fs p

theorem pathExists_iff_fsGet (fs : FS) (p : FPath) :
    pathExists fs p = true ↔ ∃ c, fsGet fs p = some c := by
  unfold pathExists fsGet aGet
  induction fs with
  | nil => simp
  | cons e t ih =>
    by_cases he : e.1 = p
    · rw [List.find?_cons_of_pos _ (by simpa using he)]
      simp [he]
    · rw [List.find?_cons_of_neg _ (by simpa using he)]
      simpa [he] using ih

theorem fsGet_eq_none_of_not_pathExists (fs : FS) (p : FPath)
    (h : pathExists fs p = false) : fsGet fs p = none := by
  cases hg : fsGet fs p with
  | none => rfl
  | some c =>
    have : pathExists fs p = true := (pathExists_iff_fsGet fs p).mpr ⟨c, hg⟩
    rw [this] at h
    cases h

theorem pathExists_of_fsGet_eq_some (fs : FS) (p : FPath) (c : String)
    (h : fsGet fs p = some c) : pathExists fs p = true :=
  (pathExists_iff_fsGet fs p).mpr ⟨c, h⟩

/-! ## Claim C1 — full rebuild after model-initialization failure

`build_reference_embeddings_from_db` runs `ref_embeddings.clear()` as its
very first statement, *before* `get_buffalo_model` is consulted, so a
model-initialization failure leaves the cache empty — not equal to its
prior content. -/

/-- **C1** is false as stated: with a nonempty starting cache, a full
rebuild whose model initialization fails does *not* leave the embedding
cache map as it was — the cache was already cleared. -/
theorem full_rebuild_model_failure_not_cache_preserving :
    ¬ (build_reference_embeddings_from_db (V := Nat) false true []
        (fun _ => none) (fun _ => 0) [("A", 5)] = [("A", 5)]) := by decide

/-- **C1** (amended): if the embedding model fails to initialize, the full
rebuild `build_reference_embeddings_from_db` aborts without computing any
embedding, but the cache has already been cleared: afterwards the
embedding cache map is empty regardless of its starting content (so it
equals the starting content only when that was already empty). -/
theorem full_rebuild_model_failure_empties_cache {V : Type} (dbOk : Bool)
    (allRefs : List (String × FPath)) (embed : FPath → Option V)
    (mean : List V → V) (cache : List (String × V)) :
    build_reference_embeddings_from_db false dbOk allRefs embed mean cache = [] :=
  rfl

/-! ## Claim C2 — debounce coalescing scope

`rebuild_embeddings_async` cancels the pending timer and schedules a new
one whose callback closes over only the *new* request's `only_label`; the
scopes of earlier requests in the same window are discarded, so the
single executed job carries the last request's scope — not the union, and
not `AllLabels` unless the last request asked for it. -/

theorem foldl_async_spec (reqs : List (Option String)) :
    ∀ (s : RebuildSched) (r : Option String), reqs.getLast? = some r →
      reqs.foldl rebuild_embeddings_async s =
        { pending := some r, executed := s.executed } := by
  induction reqs with
  | nil => intro s r h; cases h
  | cons a t ih =>
    intro s r h
    cases t with
    | nil =>
      rw [List.getLast?_singleton] at h
      cases h
      rfl
    | cons b t' =>
      rw [List.getLast?_cons_cons] at h
      simp only [List.foldl_cons]
      exact ih _ r h

/-- **C2** is false as stated: a burst of two requests, the first for
`AllLabels` (`only_label = None`) and the second for `OneLabel "A"`,
executes exactly one job — but that job is scoped to `"A"` alone, not to
all labels, even though a request for `AllLabels` was in the window. -/
theorem debounce_burst_allLabels_superseded :
    (debounce_burst ⟨none, []⟩ [none, some "A"]).executed = [some "A"] ∧
    (debounce_burst ⟨none, []⟩ [none, some "A"]).executed ≠
      [(none : Option String)] := by decide

/-- **C2** (amended): a burst of `N ≥ 1` `rebuild_embeddings_async` calls
within one debounce window executes exactly one rebuild job, and that
job's scope is the scope of the *last* request in the window (each new
request cancels the pending timer and replaces its scope entirely; no
union is taken, and `AllLabels` wins only when it is the last request). -/
theorem debounce_burst_executes_last_request (s : RebuildSched)
    (reqs : List (Option String)) (r : Option String)
    (h : reqs.getLast? = some r) :
    (debounce_burst s reqs).executed = s.executed ++ [r] ∧
    (debounce_burst s reqs).executed.length = s.executed.length + 1 := by
  unfold debounce_burst
  rw [foldl_async_spec reqs s r h]
  exact ⟨rfl, by simp [timer_fire]⟩

/-- Witness for **C2** (amended) on a concrete three-request burst. -/
theorem debounce_burst_executes_last_request_witness :
    ([none, some "A", some "B"] : List (Option String)).getLast? = some (some "B") ∧
    ((debounce_burst ⟨none, []⟩ [none, some "A", some "B"]).executed
        = [] ++ [some "B"] ∧
      (debounce_burst ⟨none, []⟩ [none, some "A", some "B"]).executed.length
        = ([] : List (Option String)).length + 1) :=
  ⟨by decide,
    debounce_burst_executes_last_request ⟨none, []⟩ [none, some "A", some "B"]
      (some "B") (by decide)⟩

/-! ## Claim C3 — label isolation of scoped rebuilds -/

theorem rebuildOneLabel_preserves_other {V : Type} (embed : FPath → Option V)
    (mean : List V → V) (allRefs : List (String × FPath))
    (cache : List (String × V)) (lbl B : String) (h : B ≠ lbl) :
    aGet (rebuildOneLabel embed mean allRefs cache lbl) B = aGet cache B := by
  simp only [rebuildOneLabel]
  split
  · exact aGet_aDel_ne cache lbl B h
  · split
    · exact aGet_aDel_ne cache lbl B h
    · exact aGet_aSet_ne cache lbl B _ h

theorem foldl_rebuildOneLabel_preserves {V : Type} (embed : FPath → Option V)
    (mean : List V → V) (allRefs : List (String × FPath)) (B : String) :
    ∀ (L : List String) (cache : List (String × V)), (∀ l ∈ L, B ≠ l) →
      aGet (L.foldl (rebuildOneLabel embed mean allRefs) cache) B = aGet cache B := by
  intro L
  induction L with
  | nil => intro cache _; rfl
  | cons a t ih =>
    intro cache h
    simp only [List.foldl_cons]
    rw [ih _ (fun l hl => h l (List.mem_cons_of_mem a hl))]
    exact rebuildOneLabel_preserves_other embed mean allRefs cache a B
      (h a (List.mem_cons_self a t))

/-- **C3**: a scoped rebuild (`build_reference_embeddings_for_labels`)
leaves the cached vector of every label `B` outside the requested label
set unchanged: the embedding cache entry for `B` is equal before and
after the call. -/
theorem scoped_rebuild_preserves_unrequested_labels {V : Type}
    (modelOk dbOk : Bool) (allRefs : List (String × FPath))
    (embed : FPath → Option V) (mean : List V → V) (labels : List String)
    (cache : List (String × V)) (B : String) (hB : B ∉ labels) :
    aGet (build_reference_embeddings_for_labels modelOk dbOk allRefs embed mean
      labels cache) B = aGet cache B := by
  unfold build_reference_embeddings_for_labels
  split
  · rfl
  · split
    · rfl
    · split
      · rfl
      · refine foldl_rebuildOneLabel_preserves embed mean allRefs B labels.dedup
          cache ?_
        intro l hl he
        exact hB (he ▸ List.mem_dedup.mp hl)

/-- Witness for **C3**: rebuilding only `"A"` leaves `"B"`'s cached vector
untouched. -/
theorem scoped_rebuild_preserves_unrequested_labels_witness :
    ("B" ∉ ["A"]) ∧
    aGet (build_reference_embeddings_for_labels (V := Nat) true true
        [("A", ("refs", "a1.jpg"))] (fun _ => some 7) (fun l => l.headD 0)
        ["A"] [("A", 1), ("B", 2)]) "B"
      = aGet [("A", 1), ("B", 2)] "B" :=
  ⟨by decide,
    scoped_rebuild_preserves_unrequested_labels true true
      [("A", ("refs", "a1.jpg"))] (fun _ => some 7) (fun l => l.headD 0)
      ["A"] [("A", 1), ("B", 2)] "B" (by decide)⟩

/-! ## Claim C8 — collision-safe destinations -/

theorem safeLoop_spec (fs : FS) (folder name ext : String) :
    ∀ (fuel i : Nat) (d : FPath), safeLoop fs folder name ext fuel i = some d →
      pathExists fs d = false ∧
      ∃ k, i ≤ k ∧ d = (folder, name ++ "_" ++ toString k ++ ext) ∧
        ∀ j, i ≤ j → j < k →
          pathExists fs (folder, name ++ "_" ++ toString j ++ ext) = true := by
  intro fuel
  induction fuel with
  | zero => intro i d h; cases h
  | succ f ih =>
    intro i d h
    simp only [safeLoop] at h
    by_cases hc : pathExists fs (folder, name ++ "_" ++ toString i ++ ext) = true
    · rw [if_pos hc] at h
      obtain ⟨hfree, k, hik, hd, hall⟩ := ih (i + 1) d h
      refine ⟨hfree, k, by omega, hd, ?_⟩
      intro j hij hjk
      by_cases hji : j = i
      · subst hji; exact hc
      · exact hall j (by omega) hjk
    · rw [if_neg hc] at h
      cases h
      refine ⟨by simpa using hc, i, le_refl i, rfl, ?_⟩
      intro j hij hjk
      omega

theorem build_safe_destination_spec (fs : FS) (folder filename u : String)
    (d : FPath) (h : _build_safe_destination fs folder filename true u = some d) :
    pathExists fs d = false ∧ d.1 = folder ∧
    (pathExists fs (folder, filename) = false → d = (folder, filename)) ∧
    (pathExists fs (folder, filename) = true →
      ∃ k, 2 ≤ k ∧
        d = (folder, (splitext filename).1 ++ "_" ++ toString k ++
          (splitext filename).2) ∧
        ∀ j, 2 ≤ j → j < k →
          pathExists fs (folder, (splitext filename).1 ++ "_" ++ toString j ++
            (splitext filename).2) = true) := by
  simp only [_build_safe_destination, Bool.not_true, Bool.false_eq_true,
    if_false] at h
  by_cases hex : pathExists fs (folder, filename) = true
  · rw [hex] at h
    simp only [Bool.not_true, Bool.false_eq_true, if_false] at h
    obtain ⟨hfree, k, hk2, hd, hall⟩ := safeLoop_spec fs folder
      (splitext filename).1 (splitext filename).2 (fs.length + 1) 2 d h
    refine ⟨hfree, by rw [hd], ?_, ?_⟩
    · intro hfalse; rw [hex] at hfalse; cases hfalse
    · intro _; exact ⟨k, hk2, hd, hall⟩
  · have hex' : pathExists fs (folder, filename) = false := by
      cases hpe : pathExists fs (folder, filename) with
      | true => exact absurd hpe hex
      | false => rfl
    rw [hex'] at h
    simp only [Bool.not_false, if_true] at h
    cases h
    exact ⟨hex', rfl, fun _ => rfl, fun htrue => absurd htrue (by simp [hex'])⟩

/-- **C8**: destination writes are collision-safe when original filenames
are kept.  If `_build_safe_destination` chooses a destination, that
destination is free (no existing file is overwritten) and lies in the
requested folder; when `name.ext` already exists, the chosen destination
is the first free name among `name_2.ext`, `name_3.ext`, …; and writing
the same filename twice yields both files present with all other files
untouched. -/
theorem build_safe_destination_collision_safe (fs : FS)
    (folder filename u u' c c' : String) (d d' : FPath)
    (h1 : _build_safe_destination fs folder filename true u = some d)
    (h2 : _build_safe_destination (fsSet fs d c) folder filename true u' = some d') :
    pathExists fs d = false ∧
    pathExists (fsSet fs d c) d' = false ∧
    d' ≠ d ∧
    (pathExists fs (folder, filename) = true →
      ∃ k, 2 ≤ k ∧
        d = (folder, (splitext filename).1 ++ "_" ++ toString k ++
          (splitext filename).2) ∧
        ∀ j, 2 ≤ j → j < k →
          pathExists fs (folder, (splitext filename).1 ++ "_" ++ toString j ++
            (splitext filename).2) = true) ∧
    fsGet (fsSet (fsSet fs d c) d' c') d' = some c' ∧
    fsGet (fsSet (fsSet fs d c) d' c') d = some c ∧
    (∀ q, q ≠ d → q ≠ d' → fsGet (fsSet (fsSet fs d c) d' c') q = fsGet fs q) := by
  obtain ⟨hfree1, _, _, hchar1⟩ := build_safe_destination_spec fs folder filename u d h1
  obtain ⟨hfree2, _, _, _⟩ :=
    build_safe_destination_spec (fsSet fs d c) folder filename u' d' h2
  have hne : d' ≠ d := by
    intro he
    rw [he] at hfree2
    have : pathExists (fsSet fs d c) d = true :=
      pathExists_of_fsGet_eq_some _ _ _ (fsGet_fsSet_self fs d c)
    rw [this] at hfree2
    cases hfree2
  refine ⟨hfree1, hfree2, hne, hchar1, ?_, ?_, ?_⟩
  · exact fsGet_fsSet_self _ d' c'
  · rw [fsGet_fsSet_ne _ d' d c' (fun he => hne he.symm)]
    exact fsGet_fsSet_self fs d c
  · intro q hqd hqd'
    rw [fsGet_fsSet_ne _ d' q c' hqd', fsGet_fsSet_ne fs d q c hqd]

/-- Witness for **C8**: writing `photo.jpg` twice into an empty `out`
folder picks `photo.jpg` then `photo_2.jpg`, both present afterwards. -/
theorem build_safe_destination_collision_safe_witness :
    (_build_safe_destination [] "out" "photo.jpg" true "" =
        some ("out", "photo.jpg")) ∧
    (_build_safe_destination (fsSet [] ("out", "photo.jpg") "x") "out"
        "photo.jpg" true "" = some ("out", "photo_2.jpg")) ∧
    (pathExists [] ("out", "photo.jpg") = false ∧
      pathExists (fsSet [] ("out", "photo.jpg") "x") ("out", "photo_2.jpg") = false ∧
      (("out", "photo_2.jpg") : FPath) ≠ ("out", "photo.jpg") ∧
      (pathExists [] ("out", "photo.jpg") = true →
        ∃ k, 2 ≤ k ∧
          (("out", "photo.jpg") : FPath) = ("out",
            (splitext "photo.jpg").1 ++ "_" ++ toString k ++
              (splitext "photo.jpg").2) ∧
          ∀ j, 2 ≤ j → j < k →
            pathExists [] ("out", (splitext "photo.jpg").1 ++ "_" ++ toString j ++
              (splitext "photo.jpg").2) = true) ∧
      fsGet (fsSet (fsSet [] ("out", "photo.jpg") "x") ("out", "photo_2.jpg") "y")
          ("out", "photo_2.jpg") = some "y" ∧
      fsGet (fsSet (fsSet [] ("out", "photo.jpg") "x") ("out", "photo_2.jpg") "y")
          ("out", "photo.jpg") = some "x" ∧
      (∀ q, q ≠ (("out", "photo.jpg") : FPath) →
        q ≠ (("out", "photo_2.jpg") : FPath) →
        fsGet (fsSet (fsSet [] ("out", "photo.jpg") "x") ("out", "photo_2.jpg") "y") q
          = fsGet [] q)) :=
  ⟨by decide, by decide,
    build_safe_destination_collision_safe [] "out" "photo.jpg" "" "" "x" "y"
      ("out", "photo.jpg") ("out", "photo_2.jpg") (by decide) (by decide)⟩

/-! ## Claim C7 — multi-mode fan-out -/

theorem copy_one_spec (fs : FS) (src : FPath) (folder filename u : String)
    (fs' : FS) (h : _copy_one fs src folder filename true u = some fs') :
    ∃ dst c, fsGet fs src = some c ∧ dst.1 = folder ∧
      pathExists fs dst = false ∧ fs' = fsSet fs dst c := by
  unfold _copy_one at h
  cases hb : _build_safe_destination fs folder filename true u with
  | none => rw [hb] at h; cases h
  | some dst =>
    cases hs : fsGet fs src with
    | none => rw [hb, hs] at h; cases h
    | some c =>
      rw [hb, hs] at h
      cases h
      obtain ⟨hfree, hfold, -, -⟩ := build_safe_destination_spec fs folder filename u dst hb
      exact ⟨dst, c, rfl, hfold, hfree, rfl⟩

theorem move_one_spec (fs : FS) (src : FPath) (folder filename u : String)
    (fs' : FS) (h : _move_one fs src folder filename true u = some fs') :
    ∃ dst c, fsGet fs src = some c ∧ dst.1 = folder ∧
      pathExists fs dst = false ∧ fs' = fsSet (fsDel fs src) dst c := by
  unfold _move_one at h
  cases hb : _build_safe_destination fs folder filename true u with
  | none => rw [hb] at h; cases h
  | some dst =>
    cases hs : fsGet fs src with
    | none => rw [hb, hs] at h; cases h
    | some c =>
      rw [hb, hs] at h
      cases h
      obtain ⟨hfree, hfold, -, -⟩ := build_safe_destination_spec fs folder filename u dst hb
      exact ⟨dst, c, rfl, hfold, hfree, rfl⟩

theorem fold_copies_spec (img : FPath) (filename out : String)
    (uuidGen : Nat → String) (c : String) :
    ∀ (L : List (Nat × String)) (fs fs' : FS), fsGet fs img = some c →
      L.foldlM (fun fs' e =>
          _copy_one fs' img (joinDir out e.2) filename true (uuidGen e.1)) fs
        = some fs' →
      (∀ q, pathExists fs q = true → fsGet fs' q = fsGet fs q) ∧
      (∀ l ∈ L.map Prod.snd,
        ∃ n, fsGet fs' (joinDir out l, n) = some c ∧ (joinDir out l, n) ≠ img) ∧
      fsGet fs' img = some c := by
  intro L
  induction L with
  | nil =>
    intro fs fs' hc h
    cases h
    exact ⟨fun q _ => rfl, by simp, hc⟩
  | cons e t ih =>
    intro fs fs' hc h
    rw [List.foldlM_cons] at h
    cases h1 : _copy_one fs img (joinDir out e.2) filename true (uuidGen e.1) with
    | none => rw [h1] at h; cases h
    | some fs1 =>
      rw [h1] at h
      simp only [Option.bind_eq_bind, Option.some_bind] at h
      obtain ⟨dst, c0, hsrc, hfold, hfree, hfs1⟩ :=
        copy_one_spec fs img (joinDir out e.2) filename (uuidGen e.1) fs1 h1
      have hc0 : c0 = c := by rw [hsrc] at hc; cases hc; rfl
      rw [hc0] at hfs1
      subst hfs1
      have himg_ne : dst ≠ img := by
        intro hdi
        rw [hdi] at hfree
        rw [pathExists_of_fsGet_eq_some fs img c hc] at hfree
        cases hfree
      have hpres1 : ∀ q, pathExists fs q = true →
          fsGet (fsSet fs dst c) q = fsGet fs q := by
        intro q hq
        have : q ≠ dst := by
          intro hqd; rw [hqd, hfree] at hq; cases hq
        exact fsGet_fsSet_ne fs dst q c this
      have hc1 : fsGet (fsSet fs dst c) img = some c := by
        rw [hpres1 img (pathExists_of_fsGet_eq_some fs img c hc)]
        exact hc
      obtain ⟨ihpres, ihmem, ihimg⟩ := ih (fsSet fs dst c) fs' hc1 h
      refine ⟨?_, ?_, ihimg⟩
      · intro q hq
        have hq1 : pathExists (fsSet fs dst c) q = true := by
          obtain ⟨cq, hcq⟩ := (pathExists_iff_fsGet fs q).mp hq
          exact pathExists_of_fsGet_eq_some _ q cq (by rw [hpres1 q hq]; exact hcq)
        rw [ihpres q hq1, hpres1 q hq]
      · intro l hl
        rcases List.mem_map.mp hl with ⟨e', he', hle⟩
        rcases List.mem_cons.mp he' with he' | he'
        · -- the head copy: its destination survives the rest of the fold
          subst he'
          subst hle
          have hshape : ((joinDir out e'.2, dst.2) : FPath) = dst := by
            rw [← hfold]
          refine ⟨dst.2, ?_, ?_⟩
          · rw [hshape]
            have hdentry : fsGet (fsSet fs dst c) dst = some c :=
              fsGet_fsSet_self fs dst c
            have hdp : pathExists (fsSet fs dst c) dst = true :=
              pathExists_of_fsGet_eq_some _ dst c hdentry
            rw [ihpres dst hdp]
            exact hdentry
          · rw [hshape]
            exact himg_ne
        · exact ihmem l (List.mem_map.mpr ⟨e', he', hle⟩)

/-- **C7**: in multi mode, for an image with at least two matched labels
and a best label, distribution copies the file into the output folder of
every matched label except the best one and then moves the original into
the best label's folder: afterwards a copy with the original content
exists in every matched non-best label folder, the file exists in the
best label's folder, and it no longer exists at its source path. -/
theorem multi_mode_fan_out (fs : FS) (img : FPath) (filename : String)
    (labels : List String) (best out : String) (uuidGen : Nat → String)
    (c : String) (fs' : FS) (hc : fsGet fs img = some c)
    (h2 : 2 ≤ labels.length)
    (hrun : distribute_to_labels fs img filename labels (some best) out true
      uuidGen "multi" = some fs') :
    (∀ l ∈ labels, l ≠ best → ∃ n, fsGet fs' (joinDir out l, n) = some c) ∧
    (∃ n, fsGet fs' (joinDir out best, n) = some c) ∧
    fsGet fs' img = none := by
  have hne : labels.isEmpty = false := by
    cases labels with
    | nil => simp at h2
    | cons a t => rfl
  have hlen1 : (labels.length == 1) = false := by
    have : labels.length ≠ 1 := by omega
    exact beq_eq_false_iff_ne.mpr this
  simp only [distribute_to_labels, hne, Bool.false_eq_true, if_false, hlen1,
    Bool.or_false] at hrun
  have hmb : (("multi" : String) == "best") = false := by decide
  rw [hmb] at hrun
  simp only [Bool.false_eq_true, if_false] at hrun
  set others := labels.filter (fun lbl => !(lbl == best)) with hothers
  cases hfold : others.enum.foldlM (fun fs'' e =>
      _copy_one fs'' img (joinDir out e.2) filename true (uuidGen e.1)) fs with
  | none => rw [hfold] at hrun; cases hrun
  | some fs1 =>
    rw [hfold] at hrun
    simp only [Option.bind_eq_bind, Option.some_bind] at hrun
    obtain ⟨hpres, hment, himg1⟩ := fold_copies_spec img filename out uuidGen c
      others.enum fs fs1 hc hfold
    obtain ⟨dstm, cm, hsrcm, hfoldm, hfreem, hfs'⟩ :=
      move_one_spec fs1 img (joinDir out best) filename (uuidGen others.length)
        fs' hrun
    have hcm : cm = c := by rw [himg1] at hsrcm; cases hsrcm; rfl
    rw [hcm] at hfs'
    subst hfs'
    have himg_ne_dstm : img ≠ dstm := by
      intro hi
      rw [← hi] at hfreem
      rw [pathExists_of_fsGet_eq_some fs1 img c himg1] at hfreem
      cases hfreem
    refine ⟨?_, ?_, ?_⟩
    · intro l hl hlb
      have hlo : l ∈ others.enum.map Prod.snd := by
        rw [List.enum_map_snd]
        rw [hothers]
        refine List.mem_filter.mpr ⟨hl, ?_⟩
        simp [hlb]
      obtain ⟨n, hn, hnimg⟩ := hment l hlo
      refine ⟨n, ?_⟩
      have hne_dstm : (joinDir out l, n) ≠ dstm := by
        intro he
        rw [he] at hn
        rw [pathExists_of_fsGet_eq_some fs1 dstm c hn] at hfreem
        cases hfreem
      rw [fsGet_fsSet_ne _ dstm _ c hne_dstm, fsGet_fsDel_ne _ img _ hnimg]
      exact hn
    · refine ⟨dstm.2, ?_⟩
      have hshape : (joinDir out best, dstm.2) = dstm := by rw [← hfoldm]
      rw [hshape]
      exact fsGet_fsSet_self _ dstm c
    · rw [fsGet_fsSet_ne _ dstm img c himg_ne_dstm]
      exact fsGet_fsDel_self fs1 img

/-- Witness for **C7**: `matchedLabels = {A, B, C}`, `bestLabel = B`,
mode `multi`: copies appear under `out/A` and `out/C`, the file ends up
under `out/B`, and the source path is gone. -/
theorem multi_mode_fan_out_witness :
    (fsGet [((("src", "f.jpg") : FPath), "c")] ("src", "f.jpg") = some "c") ∧
    (2 ≤ (["A", "B", "C"] : List String).length) ∧
    (distribute_to_labels [((("src", "f.jpg") : FPath), "c")] ("src", "f.jpg")
        "f.jpg" ["A", "B", "C"] (some "B") "out" true (fun _ => "u") "multi"
      = some [(("out/B", "f.jpg"), "c"), (("out/C", "f.jpg"), "c"),
          (("out/A", "f.jpg"), "c")]) ∧
    ((∀ l ∈ (["A", "B", "C"] : List String), l ≠ "B" →
      ∃ n, fsGet [(("out/B", "f.jpg"), "c"), (("out/C", "f.jpg"), "c"),
          (("out/A", "f.jpg"), "c")] (joinDir "out" l, n) = some "c") ∧
    (∃ n, fsGet [(("out/B", "f.jpg"), "c"), (("out/C", "f.jpg"), "c"),
        (("out/A", "f.jpg"), "c")] (joinDir "out" "B", n) = some "c") ∧
    fsGet [(("out/B", "f.jpg"), "c"), (("out/C", "f.jpg"), "c"),
        (("out/A", "f.jpg"), "c")] ("src", "f.jpg") = none) :=
  ⟨by decide, by decide, by decide,
    multi_mode_fan_out [((("src", "f.jpg") : FPath), "c")] ("src", "f.jpg")
      "f.jpg" ["A", "B", "C"] "B" "out" (fun _ => "u") "c" _
      (by decide) (by decide) (by decide)⟩

/-! ## Claim C10 — deterministic best-label fallback -/

theorem pySorted_head_min (labels : List String) (h : labels ≠ []) :
    (pySortedStrings labels).headD "" ∈ labels ∧
    ∀ l ∈ labels, (pySortedStrings labels).headD "" ≤ l := by
  have hperm : List.Perm (pySortedStrings labels) labels :=
    List.perm_insertionSort (fun a b : String => a ≤ b) labels
  have hsort : List.Sorted (fun a b : String => a ≤ b) (pySortedStrings labels) :=
    List.sorted_insertionSort (fun a b : String => a ≤ b) labels
  cases hs : pySortedStrings labels with
  | nil =>
    rw [hs] at hperm
    exact absurd (hperm.symm.eq_nil) h
  | cons a t =>
    rw [hs] at hperm hsort
    obtain ⟨hall, -⟩ := List.sorted_cons.mp hsort
    constructor
    · simpa using hperm.mem_iff.mp (List.mem_cons_self a t)
    · intro l hl
      have : l ∈ a :: t := hperm.mem_iff.mpr hl
      rcases List.mem_cons.mp this with rfl | hlt
      · simp
      · simpa using hall l hlt

/-- **C10**: when `distribute_to_labels` is called with a nonempty matched
label set and `best_label = None`, it deterministically substitutes the
lexicographically smallest label of the set as the best label before
distributing (the behaviour is identical to being called with that label,
which is the `≤`-minimum of the set), and the file is still routed: when
the call succeeds the source path is gone and the file sits in that
label's output folder. -/
theorem distribute_none_best_uses_min (fs : FS) (img : FPath)
    (filename : String) (labels : List String) (out : String) (keep : Bool)
    (uuidGen : Nat → String) (mode : String) (h : labels ≠ []) :
    distribute_to_labels fs img filename labels none out keep uuidGen mode =
      distribute_to_labels fs img filename labels
        (some ((pySortedStrings labels).headD "")) out keep uuidGen mode ∧
    (pySortedStrings labels).headD "" ∈ labels ∧
    (∀ l ∈ labels, (pySortedStrings labels).headD "" ≤ l) ∧
    (∀ (c : String) (fs' : FS), keep = true → fsGet fs img = some c →
      distribute_to_labels fs img filename labels none out keep uuidGen mode
        = some fs' →
      fsGet fs' img = none ∧
      ∃ n, fsGet fs' (joinDir out ((pySortedStrings labels).headD ""), n)
        = some c) := by
  obtain ⟨hmem, hmin⟩ := pySorted_head_min labels h
  refine ⟨rfl, hmem, hmin, ?_⟩
  intro c fs' hkeep hc hrun
  subst hkeep
  have hne : labels.isEmpty = false := by
    cases labels with
    | nil => exact absurd rfl h
    | cons a t => rfl
  simp only [distribute_to_labels, hne, Bool.false_eq_true, if_false] at hrun
  set m := (pySortedStrings labels).headD "" with hm
  by_cases hbr : (mode == "best" || labels.length == 1) = true
  · rw [if_pos hbr] at hrun
    obtain ⟨dst, c0, hsrc, hfold, hfree, hfs'⟩ :=
      move_one_spec fs img (joinDir out m) filename (uuidGen 0) fs' hrun
    have hc0 : c0 = c := by rw [hsrc] at hc; cases hc; rfl
    rw [hc0] at hfs'
    subst hfs'
    have himg_ne : img ≠ dst := by
      intro hi
      rw [← hi] at hfree
      rw [pathExists_of_fsGet_eq_some fs img c hc] at hfree
      cases hfree
    constructor
    · rw [fsGet_fsSet_ne _ dst img c himg_ne]
      exact fsGet_fsDel_self fs img
    · refine ⟨dst.2, ?_⟩
      have hshape : ((joinDir out m, dst.2) : FPath) = dst := by rw [← hfold]
      rw [hshape]
      exact fsGet_fsSet_self _ dst c
  · rw [if_neg hbr] at hrun
    cases hfold : (labels.filter (fun lbl => !(lbl == m))).enum.foldlM
        (fun fs'' e => _copy_one fs'' img (joinDir out e.2) filename true
          (uuidGen e.1)) fs with
    | none => rw [hfold] at hrun; cases hrun
    | some fs1 =>
      rw [hfold] at hrun
      simp only [Option.bind_eq_bind, Option.some_bind] at hrun
      obtain ⟨-, -, himg1⟩ := fold_copies_spec img filename out uuidGen c
        (labels.filter (fun lbl => !(lbl == m))).enum fs fs1 hc hfold
      obtain ⟨dstm, cm, hsrcm, hfoldm, hfreem, hfs'⟩ :=
        move_one_spec fs1 img (joinDir out m) filename
          (uuidGen (labels.filter (fun lbl => !(lbl == m))).length) fs' hrun
      have hcm : cm = c := by rw [himg1] at hsrcm; cases hsrcm; rfl
      rw [hcm] at hfs'
      subst hfs'
      have himg_ne : img ≠ dstm := by
        intro hi
        rw [← hi] at hfreem
        rw [pathExists_of_fsGet_eq_some fs1 img c himg1] at hfreem
        cases hfreem
      constructor
      · rw [fsGet_fsSet_ne _ dstm img c himg_ne]
        exact fsGet_fsDel_self fs1 img
      · refine ⟨dstm.2, ?_⟩
        have hshape : ((joinDir out m, dstm.2) : FPath) = dstm := by
          rw [← hfoldm]
        rw [hshape]
        exact fsGet_fsSet_self _ dstm c

/-- Witness for **C10** on a concrete two-label set: the fallback picks
`"A"`, the lexicographic minimum of `{B, A}`. -/
theorem distribute_none_best_uses_min_witness :
    ((["B", "A"] : List String) ≠ []) ∧
    (distribute_to_labels [((("src", "f.jpg") : FPath), "c")] ("src", "f.jpg")
        "f.jpg" ["B", "A"] none "out" true (fun _ => "u") "multi" =
      distribute_to_labels [((("src", "f.jpg") : FPath), "c")] ("src", "f.jpg")
        "f.jpg" ["B", "A"]
        (some ((pySortedStrings ["B", "A"]).headD "")) "out" true
        (fun _ => "u") "multi" ∧
    (pySortedStrings ["B", "A"]).headD "" ∈ (["B", "A"] : List String) ∧
    (∀ l ∈ (["B", "A"] : List String),
      (pySortedStrings ["B", "A"]).headD "" ≤ l) ∧
    (∀ (c : String) (fs' : FS), true = true →
      fsGet [((("src", "f.jpg") : FPath), "c")] ("src", "f.jpg") = some c →
      distribute_to_labels [((("src", "f.jpg") : FPath), "c")] ("src", "f.jpg")
          "f.jpg" ["B", "A"] none "out" true (fun _ => "u") "multi"
        = some fs' →
      fsGet fs' ("src", "f.jpg") = none ∧
      ∃ n, fsGet fs'
        (joinDir "out" ((pySortedStrings ["B", "A"]).headD ""), n) = some c)) :=
  ⟨by decide,
    distribute_none_best_uses_min [((("src", "f.jpg") : FPath), "c")]
      ("src", "f.jpg") "f.jpg" ["B", "A"] "out" true (fun _ => "u") "multi"
      (by decide)⟩

/-! ## Claim C9 — thumbnail cache budgets -/

/-- The structural invariant of the thumbnail cache: dict keys are
distinct, every dict key occurs in the recency list, and the recency list
respects the configured *entry-count* cap.  (The source has no byte
accounting of any kind.) -/
def tcInv {K V : Type} [DecidableEq K] (maxN : Nat) (tc : ThumbCache K V) : Prop :=
  (tc.cache.map Prod.fst).Nodup ∧
  (∀ k ∈ tc.cache.map Prod.fst, k ∈ tc.order) ∧
  tc.order.length ≤ maxN

instance {K V : Type} [DecidableEq K] (maxN : Nat) (tc : ThumbCache K V) :
    Decidable (tcInv maxN tc) := by
  unfold tcInv
  infer_instance

theorem aDel_keys_mem {K V : Type} [DecidableEq K] (c : List (K × V)) (k x : K) :
    x ∈ (aDel c k).map Prod.fst ↔ x ∈ c.map Prod.fst ∧ x ≠ k := by
  unfold aDel
  constructor
  · intro hx
    rcases List.mem_map.mp hx with ⟨e, he, hex⟩
    have hf := List.mem_filter.mp he
    refine ⟨List.mem_map.mpr ⟨e, hf.1, hex⟩, ?_⟩
    intro hxk
    have : (e.1 = k : Bool) = false := by simpa using hf.2
    rw [← hex] at hxk
    simp [hxk] at this
  · rintro ⟨hx, hxk⟩
    rcases List.mem_map.mp hx with ⟨e, he, hex⟩
    refine List.mem_map.mpr ⟨e, List.mem_filter.mpr ⟨he, ?_⟩, hex⟩
    rw [← hex] at hxk
    simpa using hxk

theorem aDel_sublist {K V : Type} [DecidableEq K] (c : List (K × V)) (k : K) :
    List.Sublist (aDel c k) c :=
  List.filter_sublist c

theorem aSet_keys {K V : Type} [DecidableEq K] (c : List (K × V)) (k : K) (v : V) :
    (aSet c k v).map Prod.fst =
      if c.any (fun e => e.1 = k) then c.map Prod.fst
      else c.map Prod.fst ++ [k] := by
  unfold aSet
  by_cases h : c.any (fun e => decide (e.1 = k)) = true
  · rw [if_pos h, if_pos h, List.map_map]
    refine List.map_congr_left ?_
    intro e _
    by_cases he : e.1 = k
    · simp [he]
    · simp [he]
  · rw [if_neg h, if_neg h, List.map_append]
    rfl

theorem evictLoop_spec {K V : Type} [DecidableEq K] (maxN : Nat) :
    ∀ (order : List K) (cache : List (K × V)),
      (∀ x ∈ cache.map Prod.fst, x ∈ order) →
      (evictLoop maxN cache order).2.length ≤ maxN ∧
      (∀ x ∈ (evictLoop maxN cache order).1.map Prod.fst,
        x ∈ (evictLoop maxN cache order).2) ∧
      List.Sublist (evictLoop maxN cache order).1 cache := by
  intro order
  induction order with
  | nil =>
    intro cache hsub
    exact ⟨by simp [evictLoop], by simpa [evictLoop] using hsub,
      by simp [evictLoop]⟩
  | cons old rest ih =>
    intro cache hsub
    by_cases hlen : rest.length + 1 > maxN
    · have heq : evictLoop maxN cache (old :: rest) =
          evictLoop maxN (aDel cache old) rest := by
        simp only [evictLoop, if_pos hlen]
      rw [heq]
      have hsub' : ∀ x ∈ (aDel cache old).map Prod.fst, x ∈ rest := by
        intro x hx
        obtain ⟨hxc, hxo⟩ := (aDel_keys_mem cache old x).mp hx
        rcases List.mem_cons.mp (hsub x hxc) with rfl | hr
        · exact absurd rfl hxo
        · exact hr
      obtain ⟨h1, h2, h3⟩ := ih (aDel cache old) hsub'
      exact ⟨h1, h2, h3.trans (aDel_sublist cache old)⟩
    · have heq : evictLoop maxN cache (old :: rest) = (cache, old :: rest) := by
        simp only [evictLoop, if_neg hlen]
      rw [heq]
      exact ⟨by simpa using Nat.le_of_not_lt hlen, hsub, List.Sublist.refl cache⟩

/-- **C9** is false as stated: the source's thumbnail cache keeps *no*
byte accounting at all, so no byte budget bounds the cache's total
estimated bytes across `Put` operations — for every candidate budget `B`
a single put of an entry of estimated size `B + 1` already exceeds it,
and no eviction restores a byte bound. -/
theorem thumbcache_no_byte_budget :
    ¬ ∃ B : ℕ, ∀ pts : List (String × ℕ),
      totalEstBytes id ((pts.foldl (fun tc e => _thumbcache_put 400 tc e.1 e.2)
        (tcEmpty (K := String) (V := ℕ)))).cache ≤ B := by
  rintro ⟨B, hB⟩
  have h := hB [("k", B + 1)]
  have h1 : (([("k", B + 1)] : List (String × ℕ)).foldl
      (fun tc e => _thumbcache_put 400 tc e.1 e.2)
      (tcEmpty (K := String) (V := ℕ))).cache = [("k", B + 1)] := by
    simp [_thumbcache_put, tcEmpty, aSet, evictLoop]
  rw [h1] at h
  simp only [totalEstBytes, List.map_cons, List.map_nil, id_eq, List.sum_cons,
    List.sum_nil, Nat.add_zero] at h
  omega

theorem aGet_eq_some_key_mem {K V : Type} [DecidableEq K] (c : List (K × V))
    (k : K) (v : V) (h : aGet c k = some v) : k ∈ c.map Prod.fst := by
  unfold aGet at h
  cases hf : c.find? (fun e => decide (e.1 = k)) with
  | none => rw [hf] at h; cases h
  | some e =>
    have he : e ∈ c := List.mem_of_find?_eq_some hf
    have hk : e.1 = k := by simpa using List.find?_some hf
    exact List.mem_map.mpr ⟨e, he, hk⟩

theorem tcInv_count_le {K V : Type} [DecidableEq K] (maxN : Nat)
    (tc : ThumbCache K V) (h : tcInv maxN tc) : tc.cache.length ≤ maxN := by
  obtain ⟨hnd, hko, hlen⟩ := h
  have h1 : (tc.cache.map Prod.fst).length ≤ tc.order.length :=
    (hnd.subperm (fun x hx => hko x hx)).length_le
  rw [List.length_map] at h1
  omega

/-- **C9** (amended): the thumbnail cache enforces only an *entry-count*
budget (`_THUMB_CACHE_MAX`, 400 in the source): starting from the empty
cache, after every `Get` and every `Put` on an invariant-satisfying
cache, the invariant still holds and the entry count stays at or below
the cap; `Put`'s eviction loop removes oldest entries one at a time until
the count cap holds.  No byte budget exists in the source. -/
theorem thumbcache_count_budget {K V : Type} [DecidableEq K] (maxN : Nat)
    (tc : ThumbCache K V) (k : K) (v : V) (h : tcInv maxN tc) :
    tcInv maxN (tcEmpty (K := K) (V := V)) ∧
    tcInv maxN (_thumbcache_put maxN tc k v) ∧
    (_thumbcache_put maxN tc k v).cache.length ≤ maxN ∧
    tcInv maxN (_thumbcache_get tc k).2 ∧
    (_thumbcache_get tc k).2.cache.length ≤ maxN := by
  obtain ⟨hnd, hko, hlen⟩ := h
  have hempty : tcInv maxN (tcEmpty (K := K) (V := V)) := by
    refine ⟨by simp [tcEmpty], by simp [tcEmpty], by simp [tcEmpty]⟩
  have hput : tcInv maxN (_thumbcache_put maxN tc k v) := by
    unfold _thumbcache_put
    have hk1 : ∀ x ∈ (aSet tc.cache k v).map Prod.fst, x ∈ tc.order ++ [k] := by
      intro x hx
      rw [aSet_keys] at hx
      by_cases hp : tc.cache.any (fun e => decide (e.1 = k)) = true
      · rw [if_pos hp] at hx
        exact List.mem_append_left _ (hko x hx)
      · rw [if_neg hp] at hx
        rcases List.mem_append.mp hx with hx | hx
        · exact List.mem_append_left _ (hko x hx)
        · exact List.mem_append_right _ hx
    have hnd1 : ((aSet tc.cache k v).map Prod.fst).Nodup := by
      rw [aSet_keys]
      by_cases hp : tc.cache.any (fun e => decide (e.1 = k)) = true
      · rw [if_pos hp]; exact hnd
      · rw [if_neg hp]
        have hnotmem : k ∉ tc.cache.map Prod.fst := by
          intro hmem
          rcases List.mem_map.mp hmem with ⟨e, he, hek⟩
          have : tc.cache.any (fun e => decide (e.1 = k)) = true :=
            List.any_eq_true.mpr ⟨e, he, by simpa using hek⟩
          exact hp this
        simp only [List.nodup_append, List.nodup_singleton, true_and]
        exact ⟨hnd, by simpa [List.disjoint_singleton] using hnotmem⟩
    obtain ⟨h1, h2, h3⟩ := evictLoop_spec maxN (tc.order ++ [k])
      (aSet tc.cache k v) hk1
    exact ⟨((h3.map Prod.fst).nodup hnd1 : _), h2, h1⟩
  refine ⟨hempty, hput, tcInv_count_le maxN _ hput, ?_⟩
  have hget : tcInv maxN (_thumbcache_get tc k).2 := by
    unfold _thumbcache_get
    cases hg : aGet tc.cache k with
    | none => exact ⟨hnd, hko, hlen⟩
    | some v0 =>
      have hkmem : k ∈ tc.cache.map Prod.fst := aGet_eq_some_key_mem _ k v0 hg
      have hkord : k ∈ tc.order := hko k hkmem
      have hcont : tc.order.contains k = true := List.elem_iff.mpr hkord
      simp only [hcont, if_true]
      refine ⟨hnd, ?_, ?_⟩
      · intro x hx
        by_cases hxk : x = k
        · subst hxk
          exact List.mem_append_right _ (List.mem_singleton_self x)
        · refine List.mem_append_left _ ?_
          exact (List.mem_erase_of_ne hxk).mpr (hko x hx)
      · rw [List.length_append]
        rw [List.length_erase_of_mem hkord]
        have : 0 < tc.order.length := List.length_pos.mpr
          (List.ne_nil_of_mem hkord)
        simp only [List.length_singleton]
        omega
  exact ⟨hget, tcInv_count_le maxN _ hget⟩

/-- Witness for **C9** (amended) on a concrete cache with cap 2. -/
theorem thumbcache_count_budget_witness :
    tcInv 2 (⟨[("a", 1)], ["a"]⟩ : ThumbCache String ℕ) ∧
    (tcInv 2 (tcEmpty (K := String) (V := ℕ)) ∧
    tcInv 2 (_thumbcache_put 2 (⟨[("a", 1)], ["a"]⟩ : ThumbCache String ℕ) "a" 2) ∧
    (_thumbcache_put 2 (⟨[("a", 1)], ["a"]⟩ : ThumbCache String ℕ) "a" 2).cache.length ≤ 2 ∧
    tcInv 2 (_thumbcache_get (⟨[("a", 1)], ["a"]⟩ : ThumbCache String ℕ) "a").2 ∧
    (_thumbcache_get (⟨[("a", 1)], ["a"]⟩ : ThumbCache String ℕ) "a").2.cache.length ≤ 2) :=
  ⟨by decide,
    thumbcache_count_budget 2 (⟨[("a", 1)], ["a"]⟩ : ThumbCache String ℕ) "a" 2
      (by decide)⟩

/-! ## Claim C6 — matched-label aggregation of `identify_faces` -/

/-- A cache entry *qualifies* for a face: its similarity passes the
label's threshold and is strictly positive (the per-face loop starts with
`best_score = 0.0`, so only strictly positive scores can ever win). -/
def QualifiesAt {V : Type} (thr : String → ℚ) (sim : V → V → ℚ) (f : V)
    (e : String × V) : Prop :=
  sim f e.2 ≥ thr e.1 ∧ sim f e.2 > 0

/-- Declarative specification of the per-face winner: label `l` sits at
some position of the cache where it qualifies, every *earlier* qualifying
entry scores strictly below it, and every *later* qualifying entry scores
at or below it (ties go to the earlier entry). -/
def IsBestQualifying {V : Type} (refs : List (String × V)) (thr : String → ℚ)
    (sim : V → V → ℚ) (f : V) (l : String) : Prop :=
  ∃ pre v post, refs = pre ++ (l, v) :: post ∧
    QualifiesAt thr sim f (l, v) ∧
    (∀ e ∈ pre, QualifiesAt thr sim f e → sim f e.2 < sim f v) ∧
    (∀ e ∈ post, QualifiesAt thr sim f e → sim f e.2 ≤ sim f v)

/-- The loop body of `face_best`, named for the proofs. -/
def fbStep {V : Type} (thr : String → ℚ) (sim : V → V → ℚ) (f : V)
    (acc : Option String × ℚ) (e : String × V) : Option String × ℚ :=
  let score := sim f e.2
  if score ≥ thr e.1 ∧ score > acc.2 then (some e.1, score) else acc

theorem face_best_eq_foldl {V : Type} (refs : List (String × V))
    (thr : String → ℚ) (sim : V → V → ℚ) (f : V) :
    face_best refs thr sim f = refs.foldl (fbStep thr sim f) (none, 0) := rfl

theorem fbFold_spec {V : Type} (thr : String → ℚ) (sim : V → V → ℚ) (f : V) :
    ∀ (refs : List (String × V)) (acc : Option String × ℚ), 0 ≤ acc.2 →
      (refs.foldl (fbStep thr sim f) acc = acc ∧
        ∀ e ∈ refs, QualifiesAt thr sim f e → sim f e.2 ≤ acc.2)
      ∨ (∃ pre e post, refs = pre ++ e :: post ∧
          QualifiesAt thr sim f e ∧ acc.2 < sim f e.2 ∧
          refs.foldl (fbStep thr sim f) acc = (some e.1, sim f e.2) ∧
          (∀ e' ∈ pre, QualifiesAt thr sim f e' → sim f e'.2 < sim f e.2) ∧
          (∀ e' ∈ post, QualifiesAt thr sim f e' → sim f e'.2 ≤ sim f e.2)) := by
  intro refs
  induction refs with
  | nil =>
    intro acc _
    left
    exact ⟨rfl, by simp⟩
  | cons e t ih =>
    intro acc hacc
    rw [List.foldl_cons]
    by_cases hup : sim f e.2 ≥ thr e.1 ∧ sim f e.2 > acc.2
    · have hstep : fbStep thr sim f acc e = (some e.1, sim f e.2) := by
        simp only [fbStep]
        rw [if_pos hup]
      rw [hstep]
      have hq : QualifiesAt thr sim f e := ⟨hup.1, lt_of_le_of_lt hacc hup.2⟩
      have hacc' : (0 : ℚ) ≤ (some e.1, sim f e.2).2 :=
        le_of_lt (lt_of_le_of_lt hacc hup.2)
      rcases ih (some e.1, sim f e.2) hacc' with ⟨heq, hall⟩ |
        ⟨pre, e', post, hdec, hq', hgt, hres, hpre, hpost⟩
      · right
        refine ⟨[], e, t, rfl, hq, hup.2, by rw [heq], by simp, ?_⟩
        intro e'' he'' hq''
        exact hall e'' he'' hq''
      · right
        have hgt' : sim f e.2 < sim f e'.2 := hgt
        refine ⟨e :: pre, e', post, by rw [hdec]; rfl, hq',
          lt_trans hup.2 hgt', hres, ?_, hpost⟩
        intro e'' he'' hq''
        rcases List.mem_cons.mp he'' with rfl | he''
        · exact hgt'
        · exact hpre e'' he'' hq''
    · have hstep : fbStep thr sim f acc e = acc := by
        simp only [fbStep]
        rw [if_neg hup]
      rw [hstep]
      rcases ih acc hacc with ⟨heq, hall⟩ |
        ⟨pre, e', post, hdec, hq', hgt, hres, hpre, hpost⟩
      · left
        refine ⟨heq, ?_⟩
        intro e'' he'' hq''
        rcases List.mem_cons.mp he'' with rfl | he''
        · by_contra hgt2
          exact hup ⟨hq''.1, lt_of_not_le hgt2⟩
        · exact hall e'' he'' hq''
      · right
        refine ⟨e :: pre, e', post, by rw [hdec]; rfl, hq', hgt, hres, ?_, hpost⟩
        intro e'' he'' hq''
        rcases List.mem_cons.mp he'' with rfl | he''
        · have hle : sim f e''.2 ≤ acc.2 := by
            by_contra hgt2
            exact hup ⟨hq''.1, lt_of_not_le hgt2⟩
          exact lt_of_le_of_lt hle hgt
        · exact hpre e'' he'' hq''

theorem face_best_some_iff {V : Type} (refs : List (String × V))
    (thr : String → ℚ) (sim : V → V → ℚ) (f : V) (l : String) :
    (∃ s, face_best refs thr sim f = (some l, s)) ↔
      IsBestQualifying refs thr sim f l := by
  rw [face_best_eq_foldl]
  constructor
  · rintro ⟨s, hs⟩
    rcases fbFold_spec thr sim f refs (none, 0) (le_refl 0) with ⟨heq, -⟩ |
      ⟨pre, e, post, hdec, hq, -, hres, hpre, hpost⟩
    · rw [heq] at hs
      cases hs
    · rw [hres] at hs
      have h1 : some e.1 = some l := congrArg Prod.fst hs
      have h1' : e.1 = l := Option.some.inj h1
      refine ⟨pre, e.2, post, ?_, ?_, ?_, ?_⟩
      · rw [hdec, ← h1']
      · rw [← h1']
        exact hq
      · intro e' he' hq'
        exact hpre e' he' hq'
      · intro e' he' hq'
        exact hpost e' he' hq'
  · rintro ⟨pre, v, post, hdec, hq, hpre, hpost⟩
    rcases fbFold_spec thr sim f refs (none, 0) (le_refl 0) with ⟨-, hall⟩ |
      ⟨pre', e', post', hdec', hq', -, hres, hpre', hpost'⟩
    · have hmem : (l, v) ∈ refs := by
        rw [hdec]
        exact List.mem_append_right _ (List.mem_cons_self _ _)
      have hle := hall (l, v) hmem hq
      have : (0 : ℚ) < sim f (l, v).2 := hq.2
      exact absurd (lt_of_lt_of_le this hle) (lt_irrefl 0)
    · have hcomb : pre ++ (l, v) :: post = pre' ++ e' :: post' := by
        rw [← hdec, ← hdec']
      rcases List.append_eq_append_iff.mp hcomb with ⟨a, ha1, ha2⟩ | ⟨c, hc1, hc2⟩
      · cases a with
        | nil =>
          simp only [List.nil_append] at ha2
          obtain ⟨he, -⟩ := List.cons.inj ha2
          refine ⟨sim f e'.2, ?_⟩
          rw [hres, ← he]
        | cons x a' =>
          obtain ⟨hx, hp⟩ := List.cons.inj ha2
          have he'post : e' ∈ post := by
            rw [hp]
            exact List.mem_append_right _ (List.mem_cons_self _ _)
          have hlv_pre' : (l, v) ∈ pre' := by
            rw [ha1, hx]
            exact List.mem_append_right _ (List.mem_cons_self _ _)
          have h1 := hpost e' he'post hq'
          have h2 := hpre' (l, v) hlv_pre' hq
          simp only at h1 h2
          exact absurd (lt_of_le_of_lt h1 h2) (lt_irrefl _)
      · cases c with
        | nil =>
          simp only [List.nil_append] at hc2
          obtain ⟨he, -⟩ := List.cons.inj hc2
          refine ⟨sim f e'.2, ?_⟩
          rw [hres, he]
        | cons x c' =>
          obtain ⟨hx, hp⟩ := List.cons.inj hc2
          have hlv_post' : (l, v) ∈ post' := by
            rw [hp]
            exact List.mem_append_right _ (List.mem_cons_self _ _)
          have he'_pre : e' ∈ pre := by
            rw [hc1, ← hx]
            exact List.mem_append_right _ (List.mem_cons_self _ _)
          have h1 := hpre e' he'_pre hq'
          have h2 := hpost' (l, v) hlv_post' hq
          simp only at h1 h2
          exact absurd (lt_of_le_of_lt h2 h1) (lt_irrefl _)

/-- The per-face body of the `identify_faces` loop, named for the proofs. -/
def idStep {V : Type} (refs : List (String × V)) (thr : String → ℚ)
    (sim : V → V → ℚ) (acc : List (String × ℚ) × List (String × ℚ)) (f : V) :
    List (String × ℚ) × List (String × ℚ) :=
  let b := face_best refs thr sim f
  match b.1 with
  | some l =>
    if l.isEmpty then acc
    else
      let scores := aSet acc.1 l (max ((aGet acc.1 l).getD 0) b.2)
      (scores, acc.2 ++ [(l, b.2)])
  | none => acc

theorem identify_faces_eq {V : Type} (refs : List (String × V))
    (thr : String → ℚ) (sim : V → V → ℚ) (faces : List V) :
    identify_faces refs thr sim faces =
      (fun r => if r.2.isEmpty then (([] : List String), none, r.1)
        else ((r.2.map (·.1)).dedup, (pyMaxSnd r.1).map (·.1), r.1))
      (faces.foldl (idStep refs thr sim) ([], [])) := rfl

theorem idFold_mem {V : Type} (refs : List (String × V)) (thr : String → ℚ)
    (sim : V → V → ℚ) (l : String) :
    ∀ (faces : List V) (acc : List (String × ℚ) × List (String × ℚ)),
      l ∈ (faces.foldl (idStep refs thr sim) acc).2.map Prod.fst ↔
        l ∈ acc.2.map Prod.fst ∨
        ∃ f ∈ faces, (face_best refs thr sim f).1 = some l ∧ l ≠ "" := by
  intro faces
  induction faces with
  | nil =>
    intro acc
    simp
  | cons f fs ih =>
    intro acc
    rw [List.foldl_cons]
    cases hb : (face_best refs thr sim f).1 with
    | none =>
      have hstep : idStep refs thr sim acc f = acc := by
        simp only [idStep, hb]
      rw [hstep, ih]
      constructor
      · rintro (h | ⟨f', hf', hp⟩)
        · exact Or.inl h
        · exact Or.inr ⟨f', List.mem_cons_of_mem f hf', hp⟩
      · rintro (h | ⟨f', hf', hp⟩)
        · exact Or.inl h
        · rcases List.mem_cons.mp hf' with rfl | hf'
          · rw [hb] at hp
            cases hp.1
          · exact Or.inr ⟨f', hf', hp⟩
    | some l' =>
      by_cases he : l'.isEmpty = true
      · have hstep : idStep refs thr sim acc f = acc := by
          simp only [idStep, hb, he, if_true]
        rw [hstep, ih]
        have hl' : l' = "" := (String.isEmpty_iff l').mp he
        constructor
        · rintro (h | ⟨f', hf', hp⟩)
          · exact Or.inl h
          · exact Or.inr ⟨f', List.mem_cons_of_mem f hf', hp⟩
        · rintro (h | ⟨f', hf', hp⟩)
          · exact Or.inl h
          · rcases List.mem_cons.mp hf' with rfl | hf'
            · rw [hb] at hp
              have : l = l' := (Option.some.inj hp.1).symm
              rw [this, hl'] at hp
              exact absurd rfl hp.2
            · exact Or.inr ⟨f', hf', hp⟩
      · have hstep : idStep refs thr sim acc f =
            (aSet acc.1 l' (max ((aGet acc.1 l').getD 0) (face_best refs thr sim f).2),
              acc.2 ++ [(l', (face_best refs thr sim f).2)]) := by
          simp only [idStep, hb, he, Bool.false_eq_true, if_false]
        rw [hstep, ih]
        have hl' : l' ≠ "" := by
          intro h0
          rw [h0] at he
          exact he rfl
        simp only [List.map_append, List.map_cons, List.map_nil,
          List.mem_append, List.mem_singleton]
        constructor
        · rintro ((h | h) | ⟨f', hf', hp⟩)
          · exact Or.inl h
          · subst h
            exact Or.inr ⟨f, List.mem_cons_self f fs, hb, hl'⟩
          · exact Or.inr ⟨f', List.mem_cons_of_mem f hf', hp⟩
        · rintro (h | ⟨f', hf', hp⟩)
          · exact Or.inl (Or.inl h)
          · rcases List.mem_cons.mp hf' with rfl | hf'
            · rw [hb] at hp
              exact Or.inl (Or.inr (Option.some.inj hp.1).symm)
            · exact Or.inr ⟨f', hf', hp⟩

/-- **C6** is false as stated: with cache entries `A` and `B`, thresholds
all `1`, and one face scoring `1` against `A` and `2` against `B`, label
`A` has a qualifying face (`1 ≥ 1`), yet `matchedLabels = {B}` — only the
per-face *best* qualifying label is recorded, not every qualifying
label. -/
theorem identify_faces_label_qualifies_but_unmatched :
    ((1 : ℚ) ≥ 1) ∧
    "A" ∉ (identify_faces [("A", (1 : ℕ)), ("B", 2)] (fun _ => (1 : ℚ))
      (fun _ v => if v = 1 then (1 : ℚ) else 2) [0]).1 := by decide

/-- **C6** (amended): for every processed image, the set of matched labels
computed by `identify_faces` equals the set of labels that are some
face's *best qualifying* label: a nonempty label `l` is in
`matchedLabels` iff some face has a cache entry for `l` whose similarity
passes `l`'s threshold, is strictly positive, strictly exceeds every
earlier qualifying entry's score, and is at least every later qualifying
entry's score.  In particular every matched label has a qualifying face,
but a label with a merely qualifying (non-best) face is not matched. -/
theorem identify_faces_matched_iff {V : Type} (refs : List (String × V))
    (thr : String → ℚ) (sim : V → V → ℚ) (faces : List V) (l : String) :
    l ∈ (identify_faces refs thr sim faces).1 ↔
      l ≠ "" ∧ ∃ f ∈ faces, IsBestQualifying refs thr sim f l := by
  rw [identify_faces_eq]
  have hmem := idFold_mem refs thr sim l faces ([], [])
  simp only [List.map_nil, List.not_mem_nil, false_or] at hmem
  by_cases he : (faces.foldl (idStep refs thr sim) ([], [])).2.isEmpty = true
  · simp only [he, if_true]
    constructor
    · intro h
      exact absurd h (List.not_mem_nil l)
    · rintro ⟨hl, f, hf, hbq⟩
      obtain ⟨s, hs⟩ := (face_best_some_iff refs thr sim f l).mpr hbq
      have hml : l ∈ (faces.foldl (idStep refs thr sim) ([], [])).2.map Prod.fst :=
        hmem.mpr ⟨f, hf, by rw [hs], hl⟩
      rw [List.isEmpty_iff] at he
      rw [he] at hml
      simp at hml
  · simp only [he, Bool.false_eq_true, if_false]
    rw [List.mem_dedup]
    show l ∈ (faces.foldl (idStep refs thr sim) ([], [])).2.map (·.1) ↔ _
    rw [hmem]
    constructor
    · rintro ⟨f, hf, hfb, hl⟩
      refine ⟨hl, f, hf, (face_best_some_iff refs thr sim f l).mp ?_⟩
      refine ⟨(face_best refs thr sim f).2, ?_⟩
      rw [← hfb]
    · rintro ⟨hl, f, hf, hbq⟩
      obtain ⟨s, hs⟩ := (face_best_some_iff refs thr sim f l).mpr hbq
      exact ⟨f, hf, by rw [hs], hl⟩

/-! ## Claim C4 — failed soft-deletes and the Reference Store -/

/-- The per-row body of the `delete_selected_refs` loop, named for the
proofs (identical to the `step` closure in the definition). -/
def delStep (trash : FPath → TrashOutcome) (label : String)
    (targets : List FPath) (acc : DelAcc) (row : String × FPath) : DelAcc :=
  if row.1 = label ∧ row.2 ∈ targets then
    let hf :=
      if pathExists acc.fs row.2 then
        let t := _trash_move_file trash acc.fs row.2
        (t.restoreHint, t.fs)
      else ((none : Option FPath), acc.fs)
    { fs := hf.2
      db := acc.db.filter (fun r => !(r.2 = row.2 : Bool))
      items := match hf.1 with
        | some b => acc.items ++ [⟨b, row.2⟩]
        | none => acc.items
      cnt := acc.cnt + 1 }
  else acc

theorem delete_selected_refs_eq (trash : FPath → TrashOutcome) (label : String)
    (targets : List FPath) (st : RefState) :
    delete_selected_refs trash label targets st =
      if label.isEmpty then ⟨st, none, [], 0⟩
      else if targets.isEmpty then ⟨st, none, [], 0⟩
      else
        (fun r => (⟨⟨r.fs, r.db⟩,
            if r.items.isEmpty then none else some ⟨label, r.items⟩,
            [some label], r.cnt⟩ : DeleteOutcome))
          (st.db.foldl (delStep trash label targets) ⟨st.fs, st.db, [], 0⟩) := rfl

theorem trash_errored_no_hint (trash : FPath → TrashOutcome) (fs : FS)
    (p : FPath) (h : trash p = TrashOutcome.errored) :
    (_trash_move_file trash fs p).restoreHint = none := by
  unfold _trash_move_file
  by_cases hex : pathExists fs p = true
  · simp only [hex, Bool.not_true, Bool.false_eq_true, if_false, h]
  · have hex' : pathExists fs p = false := by
      cases hpe : pathExists fs p with
      | true => exact absurd hpe hex
      | false => rfl
    simp only [hex', Bool.not_false, if_true]

theorem delStep_items_cases (trash : FPath → TrashOutcome) (label : String)
    (targets : List FPath) (acc : DelAcc) (row : String × FPath) :
    (delStep trash label targets acc row).items = acc.items ∨
    ∃ b, (delStep trash label targets acc row).items =
        acc.items ++ [⟨b, row.2⟩] ∧
      pathExists acc.fs row.2 = true ∧
      (_trash_move_file trash acc.fs row.2).restoreHint = some b := by
  by_cases hcond : row.1 = label ∧ row.2 ∈ targets
  · by_cases hex : pathExists acc.fs row.2 = true
    · have hitems : (delStep trash label targets acc row).items =
          match (_trash_move_file trash acc.fs row.2).restoreHint with
          | some b => acc.items ++ [⟨b, row.2⟩]
          | none => acc.items := by
        unfold delStep
        rw [if_pos hcond, if_pos hex]
      cases hh : (_trash_move_file trash acc.fs row.2).restoreHint with
      | none =>
        left
        rw [hitems, hh]
      | some b =>
        right
        exact ⟨b, by rw [hitems, hh], hex, rfl⟩
    · left
      unfold delStep
      rw [if_pos hcond, if_neg hex]
  · left
    unfold delStep
    rw [if_neg hcond]

theorem delStep_db_sub (trash : FPath → TrashOutcome) (label : String)
    (targets : List FPath) (acc : DelAcc) (row : String × FPath) :
    ∀ e ∈ (delStep trash label targets acc row).db, e ∈ acc.db := by
  intro e he
  unfold delStep at he
  by_cases hcond : row.1 = label ∧ row.2 ∈ targets
  · rw [if_pos hcond] at he
    exact List.mem_of_mem_filter he
  · rw [if_neg hcond] at he
    exact he

theorem delStep_db_matched (trash : FPath → TrashOutcome) (label : String)
    (targets : List FPath) (acc : DelAcc) (row : String × FPath)
    (hcond : row.1 = label ∧ row.2 ∈ targets) :
    (delStep trash label targets acc row).db =
      acc.db.filter (fun e => !(e.2 = row.2 : Bool)) := by
  unfold delStep
  rw [if_pos hcond]

theorem delFold_no_item_for_failed (trash : FPath → TrashOutcome)
    (label : String) (targets : List FPath) (p : FPath)
    (hfail : trash p = TrashOutcome.errored) :
    ∀ (rows : List (String × FPath)) (acc : DelAcc),
      (∀ it ∈ acc.items, it.original_path ≠ p) →
      ∀ it ∈ (rows.foldl (delStep trash label targets) acc).items,
        it.original_path ≠ p := by
  intro rows
  induction rows with
  | nil => intro acc h; exact h
  | cons r rows ih =>
    intro acc h
    rw [List.foldl_cons]
    refine ih (delStep trash label targets acc r) ?_
    intro it hit
    rcases delStep_items_cases trash label targets acc r with heq | ⟨b, heq, hex, hh⟩
    · rw [heq] at hit
      exact h it hit
    · rw [heq] at hit
      rcases List.mem_append.mp hit with hit | hit
      · exact h it hit
      · rw [List.mem_singleton] at hit
        subst hit
        intro hop
        simp only at hop
        rw [hop] at hh
        rw [trash_errored_no_hint trash acc.fs p hfail] at hh
        cases hh

theorem delFold_db_no_path (trash : FPath → TrashOutcome) (label : String)
    (targets : List FPath) (p : FPath) (hp : p ∈ targets) :
    ∀ (rows : List (String × FPath)) (acc : DelAcc),
      ((label, p) ∈ rows ∨ ∀ e ∈ acc.db, e.2 ≠ p) →
      ∀ e ∈ (rows.foldl (delStep trash label targets) acc).db, e.2 ≠ p := by
  intro rows
  induction rows with
  | nil =>
    intro acc h
    rcases h with h | h
    · exact absurd h (List.not_mem_nil _)
    · exact h
  | cons r rows ih =>
    intro acc h
    rw [List.foldl_cons]
    rcases h with h | h
    · rcases List.mem_cons.mp h with heq | hmem
      · -- this row deletes every db row with path p
        refine ih (delStep trash label targets acc r) (Or.inr ?_)
        intro e he
        have hcond : r.1 = label ∧ r.2 ∈ targets := by
          rw [← heq]
          exact ⟨rfl, hp⟩
        rw [delStep_db_matched trash label targets acc r hcond] at he
        have hf := List.of_mem_filter he
        have hrp : r.2 = p := by rw [← heq]
        rw [hrp] at hf
        simpa using hf
      · exact ih (delStep trash label targets acc r) (Or.inl hmem)
    · refine ih (delStep trash label targets acc r) (Or.inr ?_)
      intro e he
      exact h e (delStep_db_sub trash label targets acc r e he)

/-- **C4** is false as stated: a reference row whose file's soft-delete
fails is still removed from the Reference Store ("Always remove DB entry
regardless"). -/
theorem delete_refs_row_deleted_despite_trash_failure :
    ("L", (("in", "p.jpg") : FPath)) ∉
      (delete_selected_refs (fun _ => TrashOutcome.errored) "L"
        [("in", "p.jpg")]
        ⟨[((("in", "p.jpg") : FPath), "c")], [("L", ("in", "p.jpg"))]⟩).state.db := by
  decide

/-- **C4** (amended): for every file in a batch of reference deletions
whose soft-delete fails, no entry for that file appears in the undo
record pushed for the batch — but, contrary to the claim, its Reference
Store rows *are* still deleted: `delete_selected_refs` removes the DB
rows for a targeted path regardless of the soft-delete outcome. -/
theorem delete_refs_failed_softdelete (trash : FPath → TrashOutcome)
    (label : String) (targets : List FPath) (st : RefState) (p : FPath)
    (hp : p ∈ targets) (hrow : (label, p) ∈ st.db) (hlabel : label ≠ "")
    (hfail : trash p = TrashOutcome.errored) :
    (∀ rec, (delete_selected_refs trash label targets st).record = some rec →
      ∀ it ∈ rec.items, it.original_path ≠ p) ∧
    (∀ l', (l', p) ∉ (delete_selected_refs trash label targets st).state.db) := by
  have hle : label.isEmpty = false := by
    cases hl : label.isEmpty with
    | true => exact absurd ((String.isEmpty_iff label).mp hl) hlabel
    | false => rfl
  have hte : targets.isEmpty = false := by
    cases targets with
    | nil => exact absurd hp (List.not_mem_nil p)
    | cons a t => rfl
  rw [delete_selected_refs_eq]
  simp only [hle, hte, Bool.false_eq_true, if_false]
  constructor
  · intro rec hrec it hit
    by_cases hi : (st.db.foldl (delStep trash label targets)
        ⟨st.fs, st.db, [], 0⟩).items.isEmpty = true
    · simp only [hi, if_true] at hrec
      cases hrec
    · simp only [hi, Bool.false_eq_true, if_false] at hrec
      cases hrec
      exact delFold_no_item_for_failed trash label targets p hfail st.db
        ⟨st.fs, st.db, [], 0⟩ (by intro it hit0; cases hit0) it hit
  · intro l' hmem
    have := delFold_db_no_path trash label targets p hp st.db
      ⟨st.fs, st.db, [], 0⟩ (Or.inl hrow) (l', p) hmem
    exact this rfl

/-- Witness for **C4** (amended) on a concrete one-row store whose trash
move fails. -/
theorem delete_refs_failed_softdelete_witness :
    ((("in", "p.jpg") : FPath) ∈ [(("in", "p.jpg") : FPath)] ∧
      ("L", (("in", "p.jpg") : FPath)) ∈ [("L", (("in", "p.jpg") : FPath))] ∧
      ("L" : String) ≠ "" ∧
      (fun _ => TrashOutcome.errored) (("in", "p.jpg") : FPath)
        = TrashOutcome.errored) ∧
    ((∀ rec, (delete_selected_refs (fun _ => TrashOutcome.errored) "L"
        [("in", "p.jpg")]
        ⟨[((("in", "p.jpg") : FPath), "c")], [("L", ("in", "p.jpg"))]⟩).record
          = some rec →
      ∀ it ∈ rec.items, it.original_path ≠ (("in", "p.jpg") : FPath)) ∧
    (∀ l', (l', (("in", "p.jpg") : FPath)) ∉
      (delete_selected_refs (fun _ => TrashOutcome.errored) "L"
        [("in", "p.jpg")]
        ⟨[((("in", "p.jpg") : FPath), "c")], [("L", ("in", "p.jpg"))]⟩).state.db)) :=
  ⟨⟨by decide, by decide, by decide, by decide⟩,
    delete_refs_failed_softdelete (fun _ => TrashOutcome.errored) "L"
      [("in", "p.jpg")]
      ⟨[((("in", "p.jpg") : FPath), "c")], [("L", ("in", "p.jpg"))]⟩
      ("in", "p.jpg") (by decide) (by decide) (by decide) (by decide)⟩

/-! ## Claim C5 — delete / undo round trip -/

theorem pathExists_eq_false_of_fsGet_none (fs : FS) (p : FPath)
    (h : fsGet fs p = none) : pathExists fs p = false := by
  cases hpe : pathExists fs p with
  | false => rfl
  | true =>
    obtain ⟨c, hc⟩ := (pathExists_iff_fsGet fs p).mp hpe
    rw [hc] at h
    cases h

/-- File `p` has not been touched yet: its content is in place and its
designated backup location is free. -/
def Untrashed (cmap : FPath → String) (bk : FPath → FPath) (fs : FS)
    (p : FPath) : Prop :=
  fsGet fs p = some (cmap p) ∧ fsGet fs (bk p) = none

/-- File `p` has been soft-deleted: gone from its path, its content at
the backup location. -/
def Trashed (cmap : FPath → String) (bk : FPath → FPath) (fs : FS)
    (p : FPath) : Prop :=
  fsGet fs p = none ∧ fsGet fs (bk p) = some (cmap p)

/-- File `p` has been restored by the undo: content back in place, backup
consumed, reference row reinserted. -/
def RestoredU (label : String) (cmap : FPath → String) (bk : FPath → FPath)
    (acc : UndoAcc) (p : FPath) : Prop :=
  fsGet acc.fs p = some (cmap p) ∧ fsGet acc.fs (bk p) = none ∧
    (label, p) ∈ acc.db

theorem delStep_trash_spec (trash : FPath → TrashOutcome) (label : String)
    (ps : List FPath) (cmap : FPath → String) (bk : FPath → FPath)
    (H_trash : ∀ p ∈ ps, trash p = TrashOutcome.movedTo (bk p))
    (H_inj : ∀ p ∈ ps, ∀ q ∈ ps, bk p = bk q → p = q)
    (H_nops : ∀ p ∈ ps, ∀ q ∈ ps, bk p ≠ q)
    (acc : DelAcc) (row : String × FPath)
    (hsts : ∀ p ∈ ps, Untrashed cmap bk acc.fs p ∨ Trashed cmap bk acc.fs p) :
    (∀ p ∈ ps, Untrashed cmap bk (delStep trash label ps acc row).fs p ∨
      Trashed cmap bk (delStep trash label ps acc row).fs p) ∧
    (∀ p ∈ ps, Trashed cmap bk acc.fs p →
      Trashed cmap bk (delStep trash label ps acc row).fs p) ∧
    (∀ p ∈ ps, Untrashed cmap bk acc.fs p → ¬(row.1 = label ∧ row.2 = p) →
      Untrashed cmap bk (delStep trash label ps acc row).fs p) ∧
    (∀ it ∈ acc.items, it ∈ (delStep trash label ps acc row).items) ∧
    (∀ it ∈ (delStep trash label ps acc row).items, it ∈ acc.items ∨
      (it.original_path ∈ ps ∧ it = ⟨bk it.original_path, it.original_path⟩)) ∧
    (row.1 = label → row.2 ∈ ps →
      Trashed cmap bk (delStep trash label ps acc row).fs row.2) ∧
    (row.1 = label → row.2 ∈ ps → Untrashed cmap bk acc.fs row.2 →
      (⟨bk row.2, row.2⟩ : UndoItem) ∈ (delStep trash label ps acc row).items) := by
  by_cases hcond : row.1 = label ∧ row.2 ∈ ps
  · rcases hsts row.2 hcond.2 with hU | hT
    · -- the file is still in place: this row soft-deletes it
      have hex : pathExists acc.fs row.2 = true :=
        pathExists_of_fsGet_eq_some _ _ _ hU.1
      have htm : _trash_move_file trash acc.fs row.2 =
          ⟨true, some (bk row.2),
            fsSet (fsDel acc.fs row.2) (bk row.2) (cmap row.2)⟩ := by
        unfold _trash_move_file
        rw [hex]
        simp only [Bool.not_true, Bool.false_eq_true, if_false]
        rw [H_trash row.2 hcond.2, hU.1]
        rfl
      have hfs_eq : (delStep trash label ps acc row).fs =
          fsSet (fsDel acc.fs row.2) (bk row.2) (cmap row.2) := by
        unfold delStep
        rw [if_pos hcond, if_pos hex, htm]
      have hitems_eq : (delStep trash label ps acc row).items =
          acc.items ++ [⟨bk row.2, row.2⟩] := by
        unfold delStep
        rw [if_pos hcond, if_pos hex, htm]
      have hpres : ∀ p ∈ ps, p ≠ row.2 →
          fsGet (delStep trash label ps acc row).fs p = fsGet acc.fs p ∧
          fsGet (delStep trash label ps acc row).fs (bk p) =
            fsGet acc.fs (bk p) := by
        intro p hpps hne
        rw [hfs_eq]
        constructor
        · rw [fsGet_fsSet_ne _ _ _ _ (fun he => H_nops row.2 hcond.2 p hpps he.symm),
            fsGet_fsDel_ne _ _ _ hne]
        · rw [fsGet_fsSet_ne _ _ _ _
              (fun he => hne (H_inj p hpps row.2 hcond.2 he)),
            fsGet_fsDel_ne _ _ _ (H_nops p hpps row.2 hcond.2)]
      have htr2 : Trashed cmap bk (delStep trash label ps acc row).fs row.2 := by
        rw [hfs_eq]
        constructor
        · rw [fsGet_fsSet_ne _ _ _ _
              (fun he => H_nops row.2 hcond.2 row.2 hcond.2 he.symm)]
          exact fsGet_fsDel_self _ _
        · exact fsGet_fsSet_self _ _ _
      refine ⟨?_, ?_, ?_, ?_, ?_, fun _ _ => htr2, ?_⟩
      · intro p hpps
        by_cases hpq : p = row.2
        · subst hpq
          exact Or.inr htr2
        · obtain ⟨h1, h2⟩ := hpres p hpps hpq
          rcases hsts p hpps with hU' | hT'
          · exact Or.inl ⟨by rw [h1]; exact hU'.1, by rw [h2]; exact hU'.2⟩
          · exact Or.inr ⟨by rw [h1]; exact hT'.1, by rw [h2]; exact hT'.2⟩
      · intro p hpps hT'
        by_cases hpq : p = row.2
        · subst hpq
          exact absurd (hT'.1.symm.trans hU.1) (by simp)
        · obtain ⟨h1, h2⟩ := hpres p hpps hpq
          exact ⟨by rw [h1]; exact hT'.1, by rw [h2]; exact hT'.2⟩
      · intro p hpps hU' hnrow
        by_cases hpq : p = row.2
        · subst hpq
          exact absurd ⟨hcond.1, rfl⟩ hnrow
        · obtain ⟨h1, h2⟩ := hpres p hpps hpq
          exact ⟨by rw [h1]; exact hU'.1, by rw [h2]; exact hU'.2⟩
      · intro it hit
        rw [hitems_eq]
        exact List.mem_append_left _ hit
      · intro it hit
        rw [hitems_eq] at hit
        rcases List.mem_append.mp hit with hit | hit
        · exact Or.inl hit
        · rw [List.mem_singleton] at hit
          subst hit
          exact Or.inr ⟨hcond.2, rfl⟩
      · intro _ _ _
        rw [hitems_eq]
        exact List.mem_append_right _ (List.mem_singleton_self _)
    · -- the file is already gone: the row only touches the DB
      have hex : pathExists acc.fs row.2 = false :=
        pathExists_eq_false_of_fsGet_none _ _ hT.1
      have hex' : ¬ pathExists acc.fs row.2 = true := by rw [hex]; simp
      have hfs_eq : (delStep trash label ps acc row).fs = acc.fs := by
        unfold delStep
        rw [if_pos hcond, if_neg hex']
      have hitems_eq : (delStep trash label ps acc row).items = acc.items := by
        unfold delStep
        rw [if_pos hcond, if_neg hex']
      refine ⟨?_, ?_, ?_, ?_, ?_, ?_, ?_⟩
      · intro p hpps
        rw [hfs_eq]
        exact hsts p hpps
      · intro p hpps hT'
        rw [hfs_eq]
        exact hT'
      · intro p hpps hU' _
        rw [hfs_eq]
        exact hU'
      · intro it hit
        rw [hitems_eq]
        exact hit
      · intro it hit
        rw [hitems_eq] at hit
        exact Or.inl hit
      · intro _ _
        rw [hfs_eq]
        exact hT
      · intro _ _ hU'
        exact absurd (hT.1.symm.trans hU'.1) (by simp)
  · have hstep : delStep trash label ps acc row = acc := by
      unfold delStep
      rw [if_neg hcond]
    rw [hstep]
    refine ⟨hsts, fun p _ hT => hT, fun p _ hU _ => hU,
      fun it hit => hit, fun it hit => Or.inl hit, ?_, ?_⟩
    · intro h1 h2
      exact absurd ⟨h1, h2⟩ hcond
    · intro h1 h2 _
      exact absurd ⟨h1, h2⟩ hcond

theorem delFold_trash_spec (trash : FPath → TrashOutcome) (label : String)
    (ps : List FPath) (cmap : FPath → String) (bk : FPath → FPath)
    (H_trash : ∀ p ∈ ps, trash p = TrashOutcome.movedTo (bk p))
    (H_inj : ∀ p ∈ ps, ∀ q ∈ ps, bk p = bk q → p = q)
    (H_nops : ∀ p ∈ ps, ∀ q ∈ ps, bk p ≠ q) :
    ∀ (rows : List (String × FPath)) (acc : DelAcc),
      (∀ p ∈ ps, Untrashed cmap bk acc.fs p ∨ Trashed cmap bk acc.fs p) →
      (∀ p ∈ ps,
        Untrashed cmap bk (rows.foldl (delStep trash label ps) acc).fs p ∨
        Trashed cmap bk (rows.foldl (delStep trash label ps) acc).fs p) ∧
      (∀ p ∈ ps, Trashed cmap bk acc.fs p →
        Trashed cmap bk (rows.foldl (delStep trash label ps) acc).fs p) ∧
      (∀ it ∈ acc.items, it ∈ (rows.foldl (delStep trash label ps) acc).items) ∧
      (∀ it ∈ (rows.foldl (delStep trash label ps) acc).items,
        it ∈ acc.items ∨
        (it.original_path ∈ ps ∧
          it = ⟨bk it.original_path, it.original_path⟩)) ∧
      (∀ p ∈ ps, (label, p) ∈ rows →
        Trashed cmap bk (rows.foldl (delStep trash label ps) acc).fs p) ∧
      (∀ p ∈ ps, (label, p) ∈ rows → Untrashed cmap bk acc.fs p →
        (⟨bk p, p⟩ : UndoItem) ∈
          (rows.foldl (delStep trash label ps) acc).items) := by
  intro rows
  induction rows with
  | nil =>
    intro acc hsts
    refine ⟨hsts, fun p _ hT => hT, fun it hit => hit,
      fun it hit => Or.inl hit, ?_, ?_⟩
    · intro p _ hmem
      exact absurd hmem (List.not_mem_nil _)
    · intro p _ hmem
      exact absurd hmem (List.not_mem_nil _)
  | cons r rows ih =>
    intro acc hsts
    rw [List.foldl_cons]
    obtain ⟨s1, s2, s3, s4, s5, s6, s7⟩ :=
      delStep_trash_spec trash label ps cmap bk H_trash H_inj H_nops acc r hsts
    obtain ⟨f1, f2, f3, f4, f5, f6⟩ :=
      ih (delStep trash label ps acc r) s1
    refine ⟨f1, ?_, ?_, ?_, ?_, ?_⟩
    · intro p hpps hT
      exact f2 p hpps (s2 p hpps hT)
    · intro it hit
      exact f3 it (s4 it hit)
    · intro it hit
      rcases f4 it hit with hit' | hres
      · rcases s5 it hit' with hit'' | hres
        · exact Or.inl hit''
        · exact Or.inr hres
      · exact Or.inr hres
    · intro p hpps hmem
      rcases List.mem_cons.mp hmem with heq | hmem'
      · have hr1 : r.1 = label := by rw [← heq]
        have hr2 : r.2 = p := by rw [← heq]
        have h6 := s6 hr1 (by rw [hr2]; exact hpps)
        rw [hr2] at h6
        exact f2 p hpps h6
      · exact f5 p hpps hmem'
    · intro p hpps hmem hU
      rcases List.mem_cons.mp hmem with heq | hmem'
      · have hr1 : r.1 = label := by rw [← heq]
        have hr2 : r.2 = p := by rw [← heq]
        have h7 := s7 hr1 (by rw [hr2]; exact hpps) (by rw [hr2]; exact hU)
        rw [hr2] at h7
        exact f3 _ h7
      · by_cases hrp : r.1 = label ∧ r.2 = p
        · -- a duplicate row for p: the item was appended at this head row
          have h7 := s7 hrp.1 (by rw [hrp.2]; exact hpps)
            (by rw [hrp.2]; exact hU)
          rw [hrp.2] at h7
          exact f3 _ h7
        · exact f6 p hpps hmem' (s3 p hpps hU hrp)

/-- The per-item body of the undo restore loop, named for the proofs. -/
def undoStep (label : String) (acc : UndoAcc) (it : UndoItem) : UndoAcc :=
  if pathExists acc.fs it.backup_path then
    { fs := fsSet (fsDel acc.fs it.backup_path) it.original_path
        ((fsGet acc.fs it.backup_path).getD "")
      db := acc.db ++ [(label, it.original_path)]
      cnt := acc.cnt + 1 }
  else acc

theorem undo_delete_refs_eq (rec : DeleteRefsRecord) (st : RefState) :
    undo_delete_refs rec st =
      (fun r => (⟨⟨r.fs, r.db⟩,
          if rec.label.isEmpty then [] else [some rec.label], r.cnt⟩ :
            UndoOutcome))
        (rec.items.foldl (undoStep rec.label) ⟨st.fs, st.db, 0⟩) := rfl

theorem undoStep_spec (label : String) (ps : List FPath)
    (cmap : FPath → String) (bk : FPath → FPath)
    (H_inj : ∀ p ∈ ps, ∀ q ∈ ps, bk p = bk q → p = q)
    (H_nops : ∀ p ∈ ps, ∀ q ∈ ps, bk p ≠ q)
    (acc : UndoAcc) (it : UndoItem)
    (hwf : it.original_path ∈ ps ∧ it.backup_path = bk it.original_path)
    (hinv : ∀ p ∈ ps, Trashed cmap bk acc.fs p ∨
      RestoredU label cmap bk acc p) :
    (∀ p ∈ ps, Trashed cmap bk (undoStep label acc it).fs p ∨
      RestoredU label cmap bk (undoStep label acc it) p) ∧
    (∀ p ∈ ps, RestoredU label cmap bk acc p →
      RestoredU label cmap bk (undoStep label acc it) p) ∧
    RestoredU label cmap bk (undoStep label acc it) it.original_path := by
  obtain ⟨hops, hbk⟩ := hwf
  by_cases hex : pathExists acc.fs it.backup_path = true
  · -- the backup is there: this item restores its file
    have hT : Trashed cmap bk acc.fs it.original_path := by
      rcases hinv it.original_path hops with hT | hR
      · exact hT
      · have hfree := pathExists_eq_false_of_fsGet_none acc.fs
          (bk it.original_path) hR.2.1
        rw [hbk] at hex
        rw [hex] at hfree
        cases hfree
    have hfs_eq : (undoStep label acc it).fs =
        fsSet (fsDel acc.fs (bk it.original_path)) it.original_path
          (cmap it.original_path) := by
      unfold undoStep
      rw [if_pos hex, hbk, hT.2]
      rfl
    have hdb_eq : (undoStep label acc it).db =
        acc.db ++ [(label, it.original_path)] := by
      unfold undoStep
      rw [if_pos hex]
    have hres0 : RestoredU label cmap bk (undoStep label acc it)
        it.original_path := by
      refine ⟨?_, ?_, ?_⟩
      · rw [hfs_eq]
        exact fsGet_fsSet_self _ _ _
      · rw [hfs_eq]
        rw [fsGet_fsSet_ne _ _ _ _ (H_nops it.original_path hops
          it.original_path hops)]
        exact fsGet_fsDel_self _ _
      · rw [hdb_eq]
        exact List.mem_append_right _ (List.mem_singleton_self _)
    have hpres : ∀ q ∈ ps, q ≠ it.original_path →
        fsGet (undoStep label acc it).fs q = fsGet acc.fs q ∧
        fsGet (undoStep label acc it).fs (bk q) = fsGet acc.fs (bk q) := by
      intro q hqps hne
      rw [hfs_eq]
      constructor
      · rw [fsGet_fsSet_ne _ _ _ _ hne,
          fsGet_fsDel_ne _ _ _ (fun he =>
            H_nops it.original_path hops q hqps he.symm)]
      · rw [fsGet_fsSet_ne _ _ _ _ (H_nops q hqps it.original_path hops),
          fsGet_fsDel_ne _ _ _ (fun he =>
            hne (H_inj q hqps it.original_path hops he))]
    refine ⟨?_, ?_, hres0⟩
    · intro p hpps
      by_cases hpq : p = it.original_path
      · subst hpq
        exact Or.inr hres0
      · obtain ⟨h1, h2⟩ := hpres p hpps hpq
        rcases hinv p hpps with hTp | hRp
        · exact Or.inl ⟨by rw [h1]; exact hTp.1, by rw [h2]; exact hTp.2⟩
        · refine Or.inr ⟨by rw [h1]; exact hRp.1, by rw [h2]; exact hRp.2.1, ?_⟩
          rw [hdb_eq]
          exact List.mem_append_left _ hRp.2.2
    · intro p hpps hRp
      by_cases hpq : p = it.original_path
      · subst hpq
        exact absurd (hT.2.symm.trans hRp.2.1) (by simp)
      · obtain ⟨h1, h2⟩ := hpres p hpps hpq
        refine ⟨by rw [h1]; exact hRp.1, by rw [h2]; exact hRp.2.1, ?_⟩
        rw [hdb_eq]
        exact List.mem_append_left _ hRp.2.2
  · -- the backup is gone (already restored): skip
    have hstep : undoStep label acc it = acc := by
      unfold undoStep
      rw [if_neg hex]
    rw [hstep]
    refine ⟨hinv, fun p _ hR => hR, ?_⟩
    rcases hinv it.original_path hops with hT | hR
    · have := pathExists_of_fsGet_eq_some _ _ _ hT.2
      rw [← hbk] at this
      rw [this] at hex
      exact absurd rfl hex
    · exact hR

theorem undoFold_spec (label : String) (ps : List FPath)
    (cmap : FPath → String) (bk : FPath → FPath)
    (H_inj : ∀ p ∈ ps, ∀ q ∈ ps, bk p = bk q → p = q)
    (H_nops : ∀ p ∈ ps, ∀ q ∈ ps, bk p ≠ q) :
    ∀ (items : List UndoItem) (acc : UndoAcc),
      (∀ it ∈ items, it.original_path ∈ ps ∧
        it.backup_path = bk it.original_path) →
      (∀ p ∈ ps, Trashed cmap bk acc.fs p ∨ RestoredU label cmap bk acc p) →
      (∀ p ∈ ps,
        Trashed cmap bk (items.foldl (undoStep label) acc).fs p ∨
        RestoredU label cmap bk (items.foldl (undoStep label) acc) p) ∧
      (∀ p ∈ ps, RestoredU label cmap bk acc p →
        RestoredU label cmap bk (items.foldl (undoStep label) acc) p) ∧
      (∀ it ∈ items, RestoredU label cmap bk
        (items.foldl (undoStep label) acc) it.original_path) := by
  intro items
  induction items with
  | nil =>
    intro acc _ hinv
    exact ⟨hinv, fun p _ hR => hR, fun it hit => absurd hit (List.not_mem_nil _)⟩
  | cons it items ih =>
    intro acc hwf hinv
    rw [List.foldl_cons]
    obtain ⟨u1, u2, u3⟩ := undoStep_spec label ps cmap bk H_inj H_nops acc it
      (hwf it (List.mem_cons_self it items)) hinv
    obtain ⟨g1, g2, g3⟩ := ih (undoStep label acc it)
      (fun it' hit' => hwf it' (List.mem_cons_of_mem it hit')) u1
    refine ⟨g1, ?_, ?_⟩
    · intro p hpps hR
      exact g2 p hpps (u2 p hpps hR)
    · intro it' hit'
      rcases List.mem_cons.mp hit' with rfl | hit''
      · exact g2 it'.original_path (hwf it' (List.mem_cons_self it' items)).1 u3
      · exact g3 it' hit''

/-- **C5**: deleting a set of references for a label and then reverting
the resulting `DeleteRefs` undo record is a round trip.  Under the
round-trip conditions (the rows exist, the files exist, every soft-delete
lands in a fresh app-trash backup — so every backup still exists at
revert time), every deleted file is restored to its original path with
its original content, its `ReferenceEntry` row is reinserted under the
same label, and the revert requests exactly one rebuild, scoped to that
label only. -/
theorem delete_refs_undo_roundtrip (trash : FPath → TrashOutcome)
    (label : String) (ps : List FPath) (st : RefState)
    (cmap : FPath → String) (bk : FPath → FPath)
    (hlabel : label ≠ "") (hne : ps ≠ [])
    (H_rows : ∀ p ∈ ps, (label, p) ∈ st.db)
    (H_files : ∀ p ∈ ps, fsGet st.fs p = some (cmap p))
    (H_trash : ∀ p ∈ ps, trash p = TrashOutcome.movedTo (bk p))
    (H_fresh : ∀ p ∈ ps, fsGet st.fs (bk p) = none)
    (H_inj : ∀ p ∈ ps, ∀ q ∈ ps, bk p = bk q → p = q)
    (H_nops : ∀ p ∈ ps, ∀ q ∈ ps, bk p ≠ q) :
    ∃ u, delete_then_undo trash label ps st = some u ∧
      (∀ p ∈ ps, fsGet u.state.fs p = some (cmap p)) ∧
      (∀ p ∈ ps, (label, p) ∈ u.state.db) ∧
      u.rebuilds = [some label] := by
  have hle : label.isEmpty = false := by
    cases hl : label.isEmpty with
    | true => exact absurd ((String.isEmpty_iff label).mp hl) hlabel
    | false => rfl
  have hte : ps.isEmpty = false := by
    cases ps with
    | nil => exact absurd rfl hne
    | cons a t => rfl
  have hsts0 : ∀ p ∈ ps,
      Untrashed cmap bk (⟨st.fs, st.db, [], 0⟩ : DelAcc).fs p ∨
      Trashed cmap bk (⟨st.fs, st.db, [], 0⟩ : DelAcc).fs p := by
    intro p hp
    exact Or.inl ⟨H_files p hp, H_fresh p hp⟩
  obtain ⟨f1, f2, f3, f4, f5, f6⟩ := delFold_trash_spec trash label ps cmap bk
    H_trash H_inj H_nops st.db ⟨st.fs, st.db, [], 0⟩ hsts0
  set R := st.db.foldl (delStep trash label ps) ⟨st.fs, st.db, [], 0⟩ with hR
  have hwf : ∀ it ∈ R.items, it.original_path ∈ ps ∧
      it.backup_path = bk it.original_path := by
    intro it hit
    rcases f4 it hit with hit0 | ⟨hops, heq⟩
    · exact absurd hit0 (List.not_mem_nil _)
    · exact ⟨hops, by rw [heq]⟩
  have hitem : ∀ p ∈ ps, (⟨bk p, p⟩ : UndoItem) ∈ R.items := by
    intro p hp
    exact f6 p hp (H_rows p hp) ⟨H_files p hp, H_fresh p hp⟩
  have hitemsne : R.items.isEmpty = false := by
    cases ps with
    | nil => exact absurd rfl hne
    | cons p0 t =>
      have := hitem p0 (List.mem_cons_self p0 t)
      cases hi : R.items with
      | nil =>
        rw [hi] at this
        exact absurd this (List.not_mem_nil _)
      | cons a l => rfl
  have hdel : delete_selected_refs trash label ps st =
      ⟨⟨R.fs, R.db⟩, some ⟨label, R.items⟩, [some label], R.cnt⟩ := by
    rw [delete_selected_refs_eq]
    simp only [hle, hte, Bool.false_eq_true, if_false]
    rw [← hR]
    simp only [hitemsne, Bool.false_eq_true, if_false]
  have htr : ∀ p ∈ ps, Trashed cmap bk R.fs p := by
    intro p hp
    exact f5 p hp (H_rows p hp)
  obtain ⟨g1, g2, g3⟩ := undoFold_spec label ps cmap bk H_inj H_nops R.items
    ⟨R.fs, R.db, 0⟩ hwf (fun p hp => Or.inl (htr p hp))
  refine ⟨undo_delete_refs ⟨label, R.items⟩ ⟨R.fs, R.db⟩, ?_, ?_, ?_, ?_⟩
  · have hdtu : delete_then_undo trash label ps st =
        (delete_selected_refs trash label ps st).record.map
          (fun rec => undo_delete_refs rec
            (delete_selected_refs trash label ps st).state) := rfl
    rw [hdtu, hdel]
    rfl
  · intro p hp
    have hres := g3 ⟨bk p, p⟩ (hitem p hp)
    exact hres.1
  · intro p hp
    have hres := g3 ⟨bk p, p⟩ (hitem p hp)
    exact hres.2.2
  · have : (undo_delete_refs ⟨label, R.items⟩ ⟨R.fs, R.db⟩).rebuilds =
        if label.isEmpty then [] else [some label] := rfl
    rw [this, hle]
    simp

/-- Witness for **C5**: delete `{p1, p2}` for label `"Alice"`, then
revert; both files return to their paths, both rows are reinserted, and
one rebuild scoped to `"Alice"` is requested. -/
theorem delete_refs_undo_roundtrip_witness :
    (("Alice" : String) ≠ "" ∧
     ([(("in", "p1.jpg") : FPath), ("in", "p2.jpg")] ≠ []) ∧
     (∀ p ∈ [(("in", "p1.jpg") : FPath), ("in", "p2.jpg")],
       ("Alice", p) ∈ [("Alice", (("in", "p1.jpg") : FPath)),
         ("Alice", ("in", "p2.jpg"))]) ∧
     (∀ p ∈ [(("in", "p1.jpg") : FPath), ("in", "p2.jpg")],
       fsGet [((("in", "p1.jpg") : FPath), "c1"), (("in", "p2.jpg"), "c2")] p
         = some (if p = ("in", "p1.jpg") then "c1" else "c2")) ∧
     (∀ p ∈ [(("in", "p1.jpg") : FPath), ("in", "p2.jpg")],
       (if p = ("in", "p1.jpg") then TrashOutcome.movedTo ("tr", "b1")
         else TrashOutcome.movedTo ("tr", "b2"))
         = TrashOutcome.movedTo
           (if p = ("in", "p1.jpg") then (("tr", "b1") : FPath)
             else ("tr", "b2"))) ∧
     (∀ p ∈ [(("in", "p1.jpg") : FPath), ("in", "p2.jpg")],
       fsGet [((("in", "p1.jpg") : FPath), "c1"), (("in", "p2.jpg"), "c2")]
         (if p = ("in", "p1.jpg") then (("tr", "b1") : FPath) else ("tr", "b2"))
         = none) ∧
     (∀ p ∈ [(("in", "p1.jpg") : FPath), ("in", "p2.jpg")],
       ∀ q ∈ [(("in", "p1.jpg") : FPath), ("in", "p2.jpg")],
       (if p = ("in", "p1.jpg") then (("tr", "b1") : FPath) else ("tr", "b2"))
         = (if q = ("in", "p1.jpg") then (("tr", "b1") : FPath)
             else ("tr", "b2")) → p = q) ∧
     (∀ p ∈ [(("in", "p1.jpg") : FPath), ("in", "p2.jpg")],
       ∀ q ∈ [(("in", "p1.jpg") : FPath), ("in", "p2.jpg")],
       (if p = ("in", "p1.jpg") then (("tr", "b1") : FPath) else ("tr", "b2"))
         ≠ q)) ∧
    (∃ u, delete_then_undo
        (fun p => if p = ("in", "p1.jpg") then TrashOutcome.movedTo ("tr", "b1")
          else TrashOutcome.movedTo ("tr", "b2"))
        "Alice" [("in", "p1.jpg"), ("in", "p2.jpg")]
        ⟨[((("in", "p1.jpg") : FPath), "c1"), (("in", "p2.jpg"), "c2")],
          [("Alice", ("in", "p1.jpg")), ("Alice", ("in", "p2.jpg"))]⟩
        = some u ∧
      (∀ p ∈ [(("in", "p1.jpg") : FPath), ("in", "p2.jpg")],
        fsGet u.state.fs p
          = some (if p = ("in", "p1.jpg") then "c1" else "c2")) ∧
      (∀ p ∈ [(("in", "p1.jpg") : FPath), ("in", "p2.jpg")],
        ("Alice", p) ∈ u.state.db) ∧
      u.rebuilds = [some "Alice"]) :=
  ⟨⟨by decide, by decide, by decide, by decide, by decide, by decide,
      by decide, by decide⟩,
    delete_refs_undo_roundtrip
      (fun p => if p = ("in", "p1.jpg") then TrashOutcome.movedTo ("tr", "b1")
        else TrashOutcome.movedTo ("tr", "b2"))
      "Alice" [("in", "p1.jpg"), ("in", "p2.jpg")]
      ⟨[((("in", "p1.jpg") : FPath), "c1"), (("in", "p2.jpg"), "c2")],
        [("Alice", ("in", "p1.jpg")), ("Alice", ("in", "p2.jpg"))]⟩
      (fun p => if p = ("in", "p1.jpg") then "c1" else "c2")
      (fun p => if p = ("in", "p1.jpg") then ("tr", "b1") else ("tr", "b2"))
      (by decide) (by decide) (by decide) (by decide) (by decide) (by decide)
      (by decide) (by decide)⟩
